import Mathlib

/-!
Verification development for the cypherpunk-archives threading core.

The Python sources (threading_step1.py, threading_step2.py,
threading_step3_fixed.py, threading_step3b_quotes.py,
threading_step3c_timeprox.py, threading_step4.py) are embedded shallowly:

* an email record (a JSON object in the pipeline) becomes the `Email`
  structure; for the `id` and `message_id` fields, which the Python code
  reads with a raw subscript (`e[...]`, raising `KeyError` when the key is
  absent), `none` models the key being absent; for fields only read via
  `dict.get`, `none` models an absent key or a JSON `null` (the two are
  indistinguishable through `get`);
* Python dicts become association lists; an insert is a cons at the front,
  so a lookup (first match) sees the latest binding, which models
  overwriting;
* the mutable list of records becomes an explicitly threaded store
  (`List Email`); Python aliasing (dict values are references into the
  list) is modelled by indexing into the current store;
* fallible subscripts are modelled in `Except String`; loops whose
  termination Python does not guarantee structurally take explicit fuel,
  and fuel-insensitivity is proved where termination is claimed;
* strings are ASCII-interpreted: `str.lower`, `str.strip`, `\s` and `\w`
  are modelled on the ASCII range, which covers the archive's data.
-/

/-! Character and string utilities (ASCII models of Python primitives). -/

def isPySpace (c : Char) : Bool :=
  c.toNat = 32 || c.toNat = 9 || c.toNat = 10 || c.toNat = 13 || c.toNat = 11 || c.toNat = 12

def pyLowerChar (c : Char) : Char :=
  if 65 ≤ c.toNat ∧ c.toNat ≤ 90 then Char.ofNat (c.toNat + 32) else c

def pyStripLeft (l : List Char) : List Char := l.dropWhile isPySpace

def pyStrip (l : List Char) : List Char :=
  ((l.dropWhile isPySpace).reverse.dropWhile isPySpace).reverse

def lexLe : List Char → List Char → Bool
  | [], _ => true
  | _ :: _, [] => false
  | a :: as, b :: bs =>
    if a.toNat < b.toNat then true
    else if b.toNat < a.toNat then false
    else lexLe as bs

def strLe (s t : String) : Bool := lexLe s.data t.data

/-- Stable insertion into a list sorted ascending by `le`: the new element
goes after every existing element `y` with `le y x`, so elements with equal
keys keep their arrival order, as Python's stable sort does. -/
def insertStable {α : Type} (le : α → α → Bool) (x : α) : List α → List α
  | [] => [x]
  | y :: ys => if le y x then y :: insertStable le x ys else x :: y :: ys

def stableSort {α : Type} (le : α → α → Bool) (l : List α) : List α :=
  l.foldl (fun acc x => insertStable le x acc) []

/-! The email record and the orphan-status constants of the pipeline. -/

def st_has_parent : String := "has_parent"

def st_true_root : String := "true_root"

def st_orphan_reply : String := "orphan_reply"

def st_matched_by_subject : String := "matched_by_subject"

def st_matched_by_time_proximity : String := "matched_by_time_proximity"

structure Email where
  id : Option String := none
  message_id : Option String := none
  in_reply_to : Option String := none
  subject : Option String := none
  body : Option String := none
  date_parsed : Option String := none
  date_raw : Option String := none
  from_email : Option String := none
  from_raw : Option String := none
  has_pgp : Bool := false
  parent_id : Option String := none
  children_ids : List (Option String) := []
  is_thread_root : Bool := false
  orphan_status : Option String := none
  orphan_type : Option String := none
  normalized_subject : String := ""
  match_score : Option Int := none
  time_proximity_days : Option Int := none
  thread_id : Option String := none
deriving DecidableEq

/-- Python truthiness of an optional string: `None` and `""` are falsy. -/
def truthyOS : Option String → Bool
  | none => false
  | some s => s ≠ ""

/-- A raw dict subscript `e[key]`: raises `KeyError` when the key is absent. -/
def getKey {α : Type} (v : Option α) (msg : String) : Except String α :=
  match v with
  | some a => .ok a
  | none => .error msg

def keyErrId : String := "KeyError: id"

def keyErrMessageId : String := "KeyError: message_id"

/-! The message-id index (`by_message_id`). In Python it maps a message id
to a record object; since records are mutated in place, the model maps the
id to an index into the current store, and every read dereferences the
store as it is at that moment. -/

def MsgIndex : Type := List (String × Nat)

/-- Model of `{e['message_id']: e for e in emails if e.get('message_id')}`:
bindings of later records are placed in front, so the first-match lookup
returns the latest binding, as dict-comprehension overwriting does. -/
def buildByMessageId (emails : List Email) : MsgIndex :=
  let rec go : Nat → List Email → List (String × Nat)
    | _, [] => []
    | i, e :: rest =>
      go (i + 1) rest ++
        (match e.message_id with
         | some s => if s = "" then [] else [(s, i)]
         | none => [])
  go 0 emails

def lookupRec (store : List Email) (bmi : MsgIndex) (s : String) : Option Email :=
  (List.lookup s bmi).bind store.get?

/-! Cycle guard, from threading_step3_fixed.py lines 46..64 (the same
function also appears verbatim in threading_step3b_quotes.py and
threading_step3c_timeprox.py). The Python while-loop takes explicit fuel
here; `would_create_cycle` runs it with fuel `store.length + 2`, and the
fuel-insensitivity theorem below shows any fuel of at least that much gives
the same answer, which is how the Python loop's termination is expressed. -/

def cycleLoop (store : List Email) (bmi : MsgIndex) (child : String) :
    List String → Option String → Nat → Bool
  | _, _, 0 => false
  | visited, cur, fuel + 1 =>
    match cur with
    | none => false
    | some s =>
      if s = "" then false
      else if s = child then true
      else if s ∈ visited then true
      else
        match lookupRec store bmi s with
        | none => false
        | some e => cycleLoop store bmi child (s :: visited) e.parent_id fuel

def would_create_cycle (child_msg_id parent_msg_id : String) (bmi : MsgIndex)
    (store : List Email) : Bool :=
  cycleLoop store bmi child_msg_id [] (some parent_msg_id) (store.length + 2)

/-! The pure walk of parent pointers that the guard's loop examines: the
sequence of truthy `current_id` values. Falsy ids (empty string or a
missing `parent_id`) are collapsed to `none`, because the Python loop never
examines them. -/

def walkStep (store : List Email) (bmi : MsgIndex) (cur : Option String) : Option String :=
  cur.bind fun s =>
    if s = "" then none
    else
      (lookupRec store bmi s).bind fun e =>
        e.parent_id.bind fun p => if p = "" then none else some p

def walkN (store : List Email) (bmi : MsgIndex) (start : String) : Nat → Option String
  | 0 => if start = "" then none else some start
  | k + 1 => walkStep store bmi (walkN store bmi start k)

/-! Direct Linker, from threading_step1.py lines 49..93 (build_thread_trees;
the JSON loading, statistics and printing around it are omitted, the spec
marks them diagnostic only). -/

def truthyMsgIdKeys (emails : List Email) : List String :=
  emails.filterMap fun e =>
    match e.message_id with
    | some s => if s = "" then none else some s
    | none => none

/-- Update for `children_of[reply_to].append(msg_id)`: the defaultdict
appends to the existing binding, or starts a fresh one. -/
def assocAppend (k : String) (v : Option String) :
    List (String × List (Option String)) → List (String × List (Option String))
  | [] => [(k, [v])]
  | (k2, l) :: rest =>
    if k2 = k then (k2, l ++ [v]) :: rest else (k2, l) :: assocAppend k v rest

/-- The linking pass of build_thread_trees: for every record with a truthy
`in_reply_to` that is another record's truthy `message_id`, record
`parent_of[msg_id] = reply_to` (front-cons models dict overwrite) and
append to `children_of[reply_to]`. -/
def step1Links (emails : List Email) :
    List (Option String × String) × List (String × List (Option String)) :=
  let keys := truthyMsgIdKeys emails
  emails.foldl
    (fun acc e =>
      match e.in_reply_to with
      | some r =>
        if r = "" then acc
        else if r ∈ keys then ((e.message_id, r) :: acc.1, assocAppend r e.message_id acc.2)
        else acc
      | none => acc)
    ([], [])

def build_thread_trees (emails : List Email) : List Email :=
  let pc := step1Links emails
  emails.map fun e =>
    { e with
      parent_id := List.lookup e.message_id pc.1
      children_ids :=
        (match e.message_id with
         | some s => (List.lookup s pc.2).getD []
         | none => [])
      is_thread_root := (List.lookup e.message_id pc.1).isNone }

/-! Acyclicity as the spec states it: from every record, following
`parent_id` pointers (resolved through `by_message_id`) reaches a record
with no parent, or a dangling reference, within at most the record count
many steps. -/

def parentChain (store : List Email) (bmi : MsgIndex) (e : Email) : Nat → Option String
  | 0 =>
    match e.parent_id with
    | none => none
    | some p => if p = "" then none else some p
  | k + 1 => walkStep store bmi (parentChain store bmi e k)

def reaches_root_within (store : List Email) (bmi : MsgIndex) (e : Email) (bound : Nat) : Bool :=
  (List.range (bound + 1)).any fun k => (parentChain store bmi e k).isNone

def acyclic_forest (store : List Email) : Prop :=
  ∀ e ∈ store, reaches_root_within store (buildByMessageId store) e store.length = true

instance (store : List Email) : Decidable (acyclic_forest store) := by
  unfold acyclic_forest; infer_instance

/-! Subject Normalizer, from threading_step2.py lines 23..53. The regex
prefixes are modelled directly: a word pattern such as `^Re:\s*` strips a
case-insensitive literal then following whitespace, and `^\[[\w\s-]+\]\s*`
strips a bracketed tag. `re.sub` with an anchored pattern changes the
string exactly when the prefix matches, and every match removes at least
one character, so each changed pass strictly shortens the string; the
while-loop therefore takes `length + 1` fuel, which is proved sufficient
below. -/

def isWordChar (c : Char) : Bool :=
  (65 ≤ c.toNat && c.toNat ≤ 90) || (97 ≤ c.toNat && c.toNat ≤ 122) ||
    (48 ≤ c.toNat && c.toNat ≤ 57) || c.toNat = 95

def isTagChar (c : Char) : Bool :=
  isWordChar c || isPySpace c || c.toNat = 45

def stripWordPat : List Char → List Char → Option (List Char)
  | [], rest => some (rest.dropWhile isPySpace)
  | _ :: _, [] => none
  | pc :: pw, c :: cs => if pyLowerChar c = pc then stripWordPat pw cs else none

def stripBracketPat (l : List Char) : Option (List Char) :=
  match l with
  | [] => none
  | c :: rest =>
    if c = '[' then
      if (rest.takeWhile isTagChar).isEmpty then none
      else
        match rest.dropWhile isTagChar with
        | d :: tail => if d = ']' then some (tail.dropWhile isPySpace) else none
        | [] => none
    else none

def patRe : List Char := ['r', 'e', ':']

def patFwd : List Char := ['f', 'w', 'd', ':']

def patFw : List Char := ['f', 'w', ':']

/-- One `re.sub` attempt inside the stripping pass: on a match the code
replaces the string by the stripped remainder and records a change. -/
def applyPat (f : List Char → Option (List Char)) (acc : List Char × Bool) : List Char × Bool :=
  match f acc.1 with
  | some r => (pyStrip r, true)
  | none => acc

/-- One full pass over the prefix list. The Python list holds the upper- and
lower-case spelling of each word pattern separately even though both carry
`re.IGNORECASE`, so each word pattern is attempted twice per pass, in the
source's order, on the evolving string. -/
def stripperList : List (List Char → Option (List Char)) :=
  [stripWordPat patRe, stripWordPat patRe, stripWordPat patFwd, stripWordPat patFwd,
   stripWordPat patFw, stripWordPat patFw, stripBracketPat]

def normPass (l : List Char) : List Char × Bool :=
  stripperList.foldl (fun acc f => applyPat f acc) (l, false)

def normLoop : Nat → List Char → List Char
  | 0, l => l
  | fuel + 1, l =>
    if (normPass l).2 then normLoop fuel (normPass l).1 else (normPass l).1

def normalize_subject (subject : String) : String :=
  if subject = "" then ""
  else
    let s := pyStrip subject.data
    String.mk ((pyStrip (normLoop (s.length + 1) s)).map pyLowerChar)

/-! is_reply_subject, from threading_step2.py lines 56..70. These patterns
carry no IGNORECASE flag: the match is exact-case on the stripped subject. -/

def startsWithChars : List Char → List Char → Bool
  | [], _ => true
  | _ :: _, [] => false
  | p :: ps, c :: cs => p = c && startsWithChars ps cs

def is_reply_subject (subject : String) : Bool :=
  if subject = "" then false
  else
    let t := pyStrip subject.data
    startsWithChars ['R', 'e', ':'] t || startsWithChars ['R', 'E', ':'] t ||
      startsWithChars ['F', 'w', ':'] t || startsWithChars ['F', 'W', ':'] t ||
        startsWithChars ['F', 'w', 'd', ':'] t || startsWithChars ['F', 'W', 'D', ':'] t

/-! parse_date, identical in threading_step3_fixed.py lines 27..43,
threading_step3b_quotes.py, threading_step3c_timeprox.py and
threading_step4.py. The result is a naive timestamp in seconds:
`toordinal(y, m, d) * 86400 + seconds-of-day`, with `toordinal` the
proleptic-Gregorian day count datetime uses, so datetime comparison and
subtraction become Nat comparison and Int subtraction.
`datetime.fromisoformat` is modelled on the naive forms the munged string
can take (`YYYY-MM-DD`, optionally a single separator character and
`HH[:MM[:SS]]`); offset-bearing forms, which would produce aware datetimes,
are modelled as parse failures. -/

def digit2 : List Char → Option (Nat × List Char)
  | a :: b :: rest =>
    if a.isDigit && b.isDigit then some ((a.toNat - 48) * 10 + (b.toNat - 48), rest) else none
  | _ => none

def digit4 : List Char → Option (Nat × List Char)
  | a :: b :: c :: d :: rest =>
    if a.isDigit && b.isDigit && c.isDigit && d.isDigit then
      some ((((a.toNat - 48) * 10 + (b.toNat - 48)) * 10 + (c.toNat - 48)) * 10 + (d.toNat - 48),
        rest)
    else none
  | _ => none

def isLeapYear (y : Nat) : Bool := (y % 4 = 0 && y % 100 ≠ 0) || y % 400 = 0

def daysInMonth (y m : Nat) : Nat :=
  if m = 2 then (if isLeapYear y then 29 else 28)
  else if m = 4 ∨ m = 6 ∨ m = 9 ∨ m = 11 then 30
  else 31

def daysBeforeMonth (y m : Nat) : Nat :=
  (List.range (m - 1)).foldl (fun acc i => acc + daysInMonth y (i + 1)) 0

def toOrdinal (y m d : Nat) : Nat :=
  365 * (y - 1) + (y - 1) / 4 - (y - 1) / 100 + (y - 1) / 400 + daysBeforeMonth y m + d

def parseTimePart (l : List Char) : Option Nat :=
  match digit2 l with
  | none => none
  | some (hh, rest) =>
    if hh > 23 then none
    else
      match rest with
      | [] => some (hh * 3600)
      | ':' :: r2 =>
        match digit2 r2 with
        | none => none
        | some (mm, r3) =>
          if mm > 59 then none
          else
            match r3 with
            | [] => some (hh * 3600 + mm * 60)
            | ':' :: r4 =>
              match digit2 r4 with
              | none => none
              | some (ss, r5) =>
                if ss > 59 ∨ r5 ≠ [] then none else some (hh * 3600 + mm * 60 + ss)
            | _ => none
      | _ => none

def pyFromIso (l : List Char) : Option Nat :=
  match digit4 l with
  | none => none
  | some (y, r1) =>
    match r1 with
    | '-' :: r2 =>
      match digit2 r2 with
      | none => none
      | some (m, r3) =>
        match r3 with
        | '-' :: r4 =>
          match digit2 r4 with
          | none => none
          | some (d, r5) =>
            if y < 1 ∨ m < 1 ∨ m > 12 ∨ d < 1 ∨ d > daysInMonth y m then none
            else
              match r5 with
              | [] => some (toOrdinal y m d * 86400)
              | _ :: tpart =>
                if tpart.isEmpty then some (toOrdinal y m d * 86400)
                else
                  match parseTimePart tpart with
                  | none => none
                  | some secs => some (toOrdinal y m d * 86400 + secs)
        | _ => none
    | _ => none

def dropAfterLastPlus (l : List Char) : List Char :=
  ((l.reverse.dropWhile (· ≠ '+')).drop 1).reverse

def idxOfChar (c : Char) : List Char → Nat
  | [] => 0
  | x :: xs => if x = c then 0 else idxOfChar c xs + 1

def lastIdxOfChar (c : Char) (l : List Char) : Nat :=
  l.length - 1 - idxOfChar c l.reverse

def parse_date (date_str : Option String) : Option Nat :=
  match date_str with
  | none => none
  | some ds =>
    if ds = "" then none
    else
      let l1 := ds.data.filter (· ≠ 'Z')
      let l2 := if l1.contains '+' then dropAfterLastPlus l1 else l1
      let l3 :=
        if l2.count '-' > 2 ∧ l2.contains 'T' ∧ idxOfChar 'T' l2 < lastIdxOfChar '-' l2 then
          l2.take (lastIdxOfChar '-' l2)
        else l2
      pyFromIso ((l3.map fun c => if c = 'T' then ' ' else c).takeWhile (· ≠ '.'))

/-! Orphan Classifier, from threading_step2.py lines 73..167 (core loop;
file output and statistics omitted). Besides classifying, the loop builds
`subject_groups`, appending `email['id']` for every record with a nonempty
normalized subject, and afterwards the function builds
`by_id = {e['id']: e for e in emails}`; both are raw subscripts that raise
`KeyError` on a record lacking the key, which the `Except` models. -/

def ot_in_reply_to_unmatched : String := "in_reply_to_unmatched"

def ot_no_in_reply_to : String := "no_in_reply_to"

def classifyOne (e : Email) : Email :=
  let normSubj := normalize_subject (e.subject.getD "")
  let e2 :=
    if e.parent_id.isSome then { e with orphan_status := some st_has_parent }
    else if is_reply_subject (e.subject.getD "") then
      { e with
        orphan_status := some st_orphan_reply
        orphan_type :=
          some (if e.in_reply_to.isSome then ot_in_reply_to_unmatched else ot_no_in_reply_to) }
    else { e with orphan_status := some st_true_root }
  { e2 with normalized_subject := normSubj }

def checkIds : List Email → Except String Unit
  | [] => .ok ()
  | e :: rest => do
    let _ ← getKey e.id keyErrId
    checkIds rest

def identifyLoop : List Email → Except String (List Email)
  | [] => .ok []
  | e :: rest =>
    if normalize_subject (e.subject.getD "") ≠ "" then do
      let _ ← getKey e.id keyErrId
      let out ← identifyLoop rest
      pure (classifyOne e :: out)
    else do
      let out ← identifyLoop rest
      pure (classifyOne e :: out)

def identify_orphans (emails : List Email) : Except String (List Email) := do
  let out ← identifyLoop emails
  let _ ← checkIds out
  pure out

/-! Subject Matcher, from threading_step3_fixed.py lines 67..257
(match_orphans; file I/O and the statistics counters omitted — the spec
marks statistics diagnostic only and they do not feed back into any record
field — except for one effect of the summary tail that can abort the
function: line 238 divides by stats.orphans_before, the count of
orphan_reply records of the input computed at line 94, so the function
raises ZeroDivisionError whenever that count is zero; the model keeps that
raising path). -/

/-- Sort key of the per-subject candidate lists, line 90:
`e.get('date_parsed') or e.get('date_raw') or ''`, compared as strings. -/
def dateSortKey (e : Email) : String :=
  if truthyOS e.date_parsed then e.date_parsed.getD ""
  else if truthyOS e.date_raw then e.date_raw.getD ""
  else ""

def groupKey (emails : List Email) (i : Nat) : String :=
  ((emails.get? i).map dateSortKey).getD ""

/-- The per-subject candidate list: indices of the records whose
`normalized_subject` equals `s`, in archive order, stable-sorted by the
date string key. Built once before the matching loop; membership, subjects
and date strings are never mutated by the loop, so reading it from the
initial snapshot is exact. -/
def subjectGroup (emails : List Email) (s : String) : List Nat :=
  stableSort (fun i j => strLe (groupKey emails i) (groupKey emails j))
    ((List.range emails.length).filter fun i =>
      ((emails.get? i).map fun e => decide (e.normalized_subject = s)).getD false)

/-- The date-eligibility rejection, line 142: skip the candidate when both
dates parse and the candidate is not strictly earlier than the orphan. -/
def dateReject (orphanDate candDate : Option Nat) : Bool :=
  match orphanDate, candDate with
  | some od, some cd => decide (od ≤ cd)
  | _, _ => false

/-- Candidate scoring, lines 151..167. -/
def scoreCand (cand : Email) (orphanDate candDate : Option Nat) : Int :=
  (if cand.orphan_status = some st_true_root then 10 else 0) +
    (if cand.children_ids ≠ [] then 5 else 0) +
      (if truthyOS cand.parent_id then 3 else 0) +
        (match orphanDate, candDate with
         | some od, some cd =>
           let gap : Int := (od : Int) - (cd : Int)
           if gap < 86400 then 5 else if gap < 604800 then 3 else if gap < 2592000 then 1 else 0
         | _, _ => 0)

def gapOf (orphanDate candDate : Option Nat) : Option Int :=
  match orphanDate, candDate with
  | some od, some cd => some ((od : Int) - (cd : Int))
  | _, _ => none

/-- The best-candidate fold, lines 130..174: accumulator
`(best_parent, best_score, best_time_gap)` starting at `(None, -1, None)`,
replaced only on a strictly greater score. -/
def findBest (store : List Email) (bmi : MsgIndex) (orphan : Email) (orphanDate : Option Nat) :
    List Nat → Option Nat × Int × Option Int → Except String (Option Nat × Int × Option Int)
  | [], acc => .ok acc
  | j :: rest, acc =>
    match store.get? j with
    | none => findBest store bmi orphan orphanDate rest acc
    | some cand => do
      let cid ← getKey cand.id keyErrId
      let oid ← getKey orphan.id keyErrId
      if cid = oid then findBest store bmi orphan orphanDate rest acc
      else
        let candDate := parse_date cand.date_parsed
        if dateReject orphanDate candDate then findBest store bmi orphan orphanDate rest acc
        else do
          let omsg ← getKey orphan.message_id keyErrMessageId
          let cmsg ← getKey cand.message_id keyErrMessageId
          if would_create_cycle omsg cmsg bmi store then
            findBest store bmi orphan orphanDate rest acc
          else
            let score := scoreCand cand orphanDate candDate
            if acc.2.1 < score then
              findBest store bmi orphan orphanDate rest (some j, score, gapOf orphanDate candDate)
            else
              findBest store bmi orphan orphanDate rest acc

/-- Processing of one record of the matching loop, lines 114..213. -/
def processOrphan (groups : String → List Nat) (store : List Email) (bmi : MsgIndex) (i : Nat) :
    Except String (List Email × MsgIndex) :=
  match store.get? i with
  | none => .ok (store, bmi)
  | some e =>
    if e.orphan_status ≠ some st_orphan_reply then .ok (store, bmi)
    else if e.normalized_subject = "" then .ok (store, bmi)
    else if (groups e.normalized_subject).length ≤ 1 then .ok (store, bmi)
    else do
      let orphanDate := parse_date e.date_parsed
      let best ← findBest store bmi e orphanDate (groups e.normalized_subject) (none, -1, none)
      match best.1 with
      | none => .ok (store, bmi)
      | some j =>
        match store.get? j with
        | none => .ok (store, bmi)
        | some bp => do
          let pmsg ← getKey bp.message_id keyErrMessageId
          let omsg ← getKey e.message_id keyErrMessageId
          let e2 :=
            { e with
              parent_id := some pmsg
              orphan_status := some st_matched_by_subject
              match_score := some best.2.1 }
          let store2 := store.set i e2
          let bp2 :=
            if (some omsg) ∈ bp.children_ids then bp
            else { bp with children_ids := bp.children_ids ++ [some omsg] }
          .ok (store2.set j bp2, (omsg, i) :: bmi)

def matchLoop (groups : String → List Nat) :
    List Nat → List Email × MsgIndex → Except String (List Email × MsgIndex)
  | [], st => .ok st
  | i :: rest, st => do
    let st2 ← processOrphan groups st.1 st.2 i
    matchLoop groups rest st2

def zeroDivErr : String := "ZeroDivisionError: division by zero"

/-- Lines 67..257: the `by_id` comprehension of line 78 (checkIds), the
matching loop, and the summary of line 238, whose division by
`stats.orphans_before` (line 94: the orphan_reply count of the input,
taken before any mutation) raises when that count is zero. -/
def match_orphans (emails : List Email) : Except String (List Email) := do
  let _ ← checkIds emails
  let orphans_before :=
    (emails.filter fun e => decide (e.orphan_status = some st_orphan_reply)).length
  let out ← matchLoop (subjectGroup emails) (List.range emails.length)
    (emails, buildByMessageId emails)
  if orphans_before = 0 then .error zeroDivErr
  else pure out.1

/-! Time-Proximity Merger, from threading_step3c_timeprox.py lines 63..158
(merge_by_time_proximity; file I/O and statistics omitted). Grouping keeps
dict insertion order: subjects in order of first appearance among eligible
records. -/

def tpEligible (e : Email) : Bool :=
  e.orphan_status = some st_true_root && e.normalized_subject ≠ "" &&
    e.normalized_subject.length > 3

def tpSubjects (emails : List Email) : List String :=
  ((emails.filter tpEligible).map (fun e => e.normalized_subject)).eraseDups

def tpGroup (emails : List Email) (s : String) : List Nat :=
  (List.range emails.length).filter fun i =>
    ((emails.get? i).map fun e => tpEligible e && decide (e.normalized_subject = s)).getD false

/-- The canonical-pointer walk over one date-sorted group, lines 124..157:
a member farther than the window from the canonical becomes the new
canonical; a member within the window is linked under the canonical unless
the cycle guard rejects it. `days_apart` is `timedelta.days`, a floor
division of the gap by 86400 seconds. -/
def tpWalk (maxDays : Int) :
    List (Nat × Nat) → Nat × Nat → List Email × MsgIndex →
      Except String (List Email × MsgIndex)
  | [], _, st => .ok st
  | (li, ld) :: rest, (ci, cd), (store, bmi) =>
    let days : Int := Int.fdiv ((ld : Int) - (cd : Int)) 86400
    if days > maxDays then tpWalk maxDays rest (li, ld) (store, bmi)
    else
      match store.get? li, store.get? ci with
      | some later, some canon => do
        let lmsg ← getKey later.message_id keyErrMessageId
        let cmsg ← getKey canon.message_id keyErrMessageId
        if would_create_cycle lmsg cmsg bmi store then
          tpWalk maxDays rest (ci, cd) (store, bmi)
        else
          let later2 :=
            { later with
              parent_id := some cmsg
              orphan_status := some st_matched_by_time_proximity
              time_proximity_days := some days }
          let store2 := store.set li later2
          let canon2 :=
            if (some lmsg) ∈ canon.children_ids then canon
            else { canon with children_ids := canon.children_ids ++ [some lmsg] }
          tpWalk maxDays rest (ci, cd) (store2.set ci canon2, (lmsg, li) :: bmi)
      | _, _ => .ok (store, bmi)

/-- One group, lines 107..122: pair each member with its parsed date
(members with unparseable dates drop out), require at least two dated
members, date-sort, and walk with the earliest member as first canonical. -/
def tpProcessGroup (maxDays : Int) (g : List Nat) (st : List Email × MsgIndex) :
    Except String (List Email × MsgIndex) :=
  let rwd := stableSort (fun a b => decide (a.2 ≤ b.2))
    (g.filterMap fun i => ((st.1.get? i).bind fun e => parse_date e.date_parsed).map fun dt =>
      (i, dt))
  if rwd.length < 2 then .ok st
  else
    match rwd with
    | [] => .ok st
    | c :: rest => tpWalk maxDays rest c st

def tpGroupsLoop (maxDays : Int) :
    List (List Nat) → List Email × MsgIndex → Except String (List Email × MsgIndex)
  | [], st => .ok st
  | g :: gs, st => do
    let st2 ← tpProcessGroup maxDays g st
    tpGroupsLoop maxDays gs st2

def merge_by_time_proximity (emails : List Email) (maxDays : Int) :
    Except String (List Email) := do
  let subjects := (tpSubjects emails).filter fun s => (tpGroup emails s).length > 1
  let out ← tpGroupsLoop maxDays (subjects.map (tpGroup emails)) (emails, buildByMessageId emails)
  pure out.1

/-! Thread Assembler, from threading_step4.py lines 44..124 (build_threads;
file I/O and the statistics/size-distribution tail omitted, along with the
derived fields year_start — a projection of date_start — of the thread
record). Dates inside a thread record stay as the parsed timestamps; the
Python `.isoformat()` calls only format them. Python's
`list(set(...))` for participants has unspecified order; the model keeps
first-occurrence order, and the participant theorems only use the set
content, which is order-independent. The recursive traversal takes fuel
`store.length + 1`, enough for every forest (a chain can visit each record
at most once); on inputs whose children graph is cyclic the Python
recursion would not terminate, and the fuel cutoff is the model's
divergence point. -/

structure ThreadRec where
  id : String
  root_message_id : String
  subject : String
  normalized_subject : String
  message_ids : List String
  message_count : Nat
  participants : List String
  participant_count : Nat
  date_start : Option Nat
  date_end : Option Nat
  depth : Nat
  root_author : String
  has_pgp : Bool
deriving DecidableEq

def get_thread_messages (store : List Email) (bmi : MsgIndex) :
    Nat → Nat → Nat → List (Nat × Nat)
  | 0, i, d => [(i, d)]
  | fuel + 1, i, d =>
    match store.get? i with
    | none => [(i, d)]
    | some e =>
      (i, d) :: (e.children_ids.map fun cm =>
        match cm with
        | some s =>
          match List.lookup s bmi with
          | some j => get_thread_messages store bmi fuel j (d + 1)
          | none => []
        | none => []).flatten

def threadSortKey (store : List Email) (p : Nat × Nat) : Nat :=
  ((store.get? p.1).bind fun e => parse_date e.date_parsed).getD 86400

def senderOf (e : Email) : Option String :=
  if truthyOS e.from_email then e.from_email
  else if truthyOS e.from_raw then e.from_raw
  else none

def sendersOf (store : List Email) (ms : List (Nat × Nat)) : List String :=
  ms.filterMap fun p => (store.get? p.1).bind senderOf

def datesOf (store : List Email) (ms : List (Nat × Nat)) : List Nat :=
  ms.filterMap fun p => (store.get? p.1).bind fun e => parse_date e.date_parsed

def thread_pre : String := "thread_"

def collectIds (store : List Email) : List (Nat × Nat) → Except String (List String)
  | [] => .ok []
  | p :: rest => do
    let e ← (match store.get? p.1 with
      | some e => Except.ok e
      | none => Except.error keyErrId)
    let a ← getKey e.id keyErrId
    let out ← collectIds store rest
    pure (a :: out)

def buildThread (store : List Email) (bmi : MsgIndex) (ri : Nat) (root : Email) :
    Except String (ThreadRec × List (Nat × Nat)) := do
  let ms := stableSort (fun a b => decide (threadSortKey store a ≤ threadSortKey store b))
    (get_thread_messages store bmi (store.length + 1) ri 0)
  let mids ← collectIds store ms
  let rootId ← getKey root.id keyErrId
  let parts := (sendersOf store ms).eraseDups
  let dates := datesOf store ms
  pure
    ({ id := thread_pre ++ rootId
       root_message_id := rootId
       subject := root.subject.getD ""
       normalized_subject := root.normalized_subject
       message_ids := mids
       message_count := mids.length
       participants := parts
       participant_count := parts.length
       date_start := dates.min?
       date_end := dates.max?
       depth := (ms.map Prod.snd).foldl max 0
       root_author := (senderOf root).getD ""
       has_pgp := ms.any fun p => ((store.get? p.1).map Email.has_pgp).getD false }, ms)

def stampThread (store : List Email) (tid : String) (ms : List (Nat × Nat)) : List Email :=
  ms.foldl
    (fun st p =>
      match st.get? p.1 with
      | some e => st.set p.1 { e with thread_id := some tid }
      | none => st)
    store

def buildThreadsLoop (bmi : MsgIndex) :
    List Nat → List Email × List ThreadRec → Except String (List Email × List ThreadRec)
  | [], st => .ok st
  | ri :: rest, (store, ths) =>
    match store.get? ri with
    | none => buildThreadsLoop bmi rest (store, ths)
    | some root => do
      let tm ← buildThread store bmi ri root
      buildThreadsLoop bmi rest (stampThread store tm.1.id tm.2, ths ++ [tm.1])

def build_threads (emails : List Email) : Except String (List Email × List ThreadRec) := do
  let _ ← checkIds emails
  let rootIdxs := (List.range emails.length).filter fun i =>
    ((emails.get? i).map fun e => e.parent_id.isNone).getD false
  buildThreadsLoop (buildByMessageId emails) rootIdxs (emails, [])

/-! Concrete record for the Direct Linker cycle evaluation: its
`in_reply_to` equals its own `message_id`, the input class the acyclicity
claim explicitly covers. -/

def c1id : String := "e1"

def c1mid : String := "m1"

def c1email : Email := { id := some c1id, message_id := some c1mid, in_reply_to := some c1mid }

/-- C1: the spec demands that after every phase the parent relation is
acyclic, in particular after the Direct Linker on a record whose
`in_reply_to` equals its own `message_id`. The code has no guard there:
on that input build_thread_trees sets the record's `parent_id` to its own
message id, and following `parent_id` never reaches a root, so the
invariant the spec states (and later phases repair cycles to protect) is
violated by the Direct Linker itself. -/
theorem c1_direct_linker_self_reference_breaks_acyclicity :
    (build_thread_trees [c1email]).map Email.parent_id = [some c1mid] ∧
      ¬ acyclic_forest (build_thread_trees [c1email]) := by
  constructor
  · rfl
  · decide


/-! Support lemmas about the pure parent-pointer walk and the guard loop. -/

theorem walkStep_none (store : List Email) (bmi : MsgIndex) :
    walkStep store bmi none = none := rfl

theorem walkStep_some_elim (store : List Email) (bmi : MsgIndex) (cur : Option String)
    (p : String) (h : walkStep store bmi cur = some p) :
    ∃ s e, cur = some s ∧ s ≠ "" ∧ lookupRec store bmi s = some e ∧
      e.parent_id = some p ∧ p ≠ "" := by
  simp only [walkStep, Option.bind_eq_some] at h
  obtain ⟨s, hcur, h⟩ := h
  by_cases hs : s = ""
  · simp [hs] at h
  · simp only [hs, if_false, Option.bind_eq_some] at h
    obtain ⟨e, he, q, hq, h⟩ := h
    by_cases hqe : q = ""
    · simp [hqe] at h
    · simp only [hqe, if_false, Option.some.injEq] at h
      subst h
      exact ⟨s, e, hcur, hs, he, hq, hqe⟩

theorem walkStep_ne_empty (store : List Email) (bmi : MsgIndex) (cur : Option String)
    (p : String) (h : walkStep store bmi cur = some p) : p ≠ "" :=
  (walkStep_some_elim store bmi cur p h).choose_spec.choose_spec.2.2.2.2

theorem walkN_empty (store : List Email) (bmi : MsgIndex) (k : Nat) :
    walkN store bmi "" k = none := by
  induction k with
  | zero => simp [walkN]
  | succ k ih => simp [walkN, ih, walkStep_none]

theorem walkN_none_add (store : List Email) (bmi : MsgIndex) (s : String) (t m : Nat)
    (h : walkN store bmi s t = none) : walkN store bmi s (t + m) = none := by
  induction m with
  | zero => exact h
  | succ m ih => rw [show t + (m + 1) = (t + m) + 1 by omega, walkN, ih, walkStep_none]

theorem walkN_some_of_le (store : List Email) (bmi : MsgIndex) (s : String) (t j : Nat)
    (v : String) (hj : walkN store bmi s j = some v) (ht : t ≤ j) :
    ∃ u, walkN store bmi s t = some u := by
  match hu : walkN store bmi s t with
  | some u => exact ⟨u, rfl⟩
  | none =>
    rw [show j = t + (j - t) by omega, walkN_none_add store bmi s t (j - t) hu] at hj
    cases hj

theorem walkN_succ_front (store : List Email) (bmi : MsgIndex) (s : String) (hs : s ≠ "")
    (k : Nat) :
    walkN store bmi s (k + 1) =
      (match walkStep store bmi (some s) with
       | some t => walkN store bmi t k
       | none => none) := by
  induction k with
  | zero =>
    show walkStep store bmi (walkN store bmi s 0) = _
    rw [show walkN store bmi s 0 = some s by simp [walkN, hs]]
    match ht : walkStep store bmi (some s) with
    | none => rfl
    | some t => simp [walkN, walkStep_ne_empty store bmi (some s) t ht]
  | succ k ih =>
    show walkStep store bmi (walkN store bmi s (k + 1)) = _
    rw [ih]
    match ht : walkStep store bmi (some s) with
    | none => simp [walkStep_none]
    | some t => rfl

/-- Every value the walk takes after the start is a truthy `parent_id` of
some record of the store. -/
def parentVals (store : List Email) : List String :=
  store.filterMap fun e =>
    match e.parent_id with
    | some p => if p = "" then none else some p
    | none => none

theorem mem_of_lookupRec (store : List Email) (bmi : MsgIndex) (s : String) (e : Email)
    (h : lookupRec store bmi s = some e) : e ∈ store := by
  unfold lookupRec at h
  match hl : List.lookup s bmi with
  | none => rw [hl] at h; cases h
  | some i =>
    rw [hl] at h
    simp only [Option.some_bind] at h
    exact List.get?_mem h

theorem walkStep_mem_parentVals (store : List Email) (bmi : MsgIndex) (cur : Option String)
    (p : String) (h : walkStep store bmi cur = some p) : p ∈ parentVals store := by
  obtain ⟨s, e, _, _, he, hp, hpe⟩ := walkStep_some_elim store bmi cur p h
  exact List.mem_filterMap.mpr
    ⟨e, mem_of_lookupRec store bmi s e he, by rw [hp]; simp [hpe]⟩

theorem walkN_mem_parentVals (store : List Email) (bmi : MsgIndex) (s : String) (k : Nat)
    (v : String) (h : walkN store bmi s (k + 1) = some v) : v ∈ parentVals store :=
  walkStep_mem_parentVals store bmi (walkN store bmi s k) v h

theorem walkN_zero_some (store : List Email) (bmi : MsgIndex) (s : String) (v : String)
    (h : walkN store bmi s 0 = some v) : v = s ∧ s ≠ "" := by
  unfold walkN at h
  by_cases hs : s = ""
  · simp [hs] at h
  · simp only [hs, if_false, Option.some.injEq] at h
    exact ⟨h.symm, hs⟩

theorem cycleLoop_succ (store : List Email) (bmi : MsgIndex) (child : String)
    (visited : List String) (s : String) (f : Nat) :
    cycleLoop store bmi child visited (some s) (f + 1) =
      (if s = "" then false
       else if s = child then true
       else if s ∈ visited then true
       else
         match lookupRec store bmi s with
         | none => false
         | some e => cycleLoop store bmi child (s :: visited) e.parent_id f) := rfl

theorem walkStep_some_s_elim (store : List Email) (bmi : MsgIndex) (s p : String)
    (h : walkStep store bmi (some s) = some p) :
    s ≠ "" ∧ ∃ e, lookupRec store bmi s = some e ∧ e.parent_id = some p ∧ p ≠ "" := by
  obtain ⟨s2, e, hs2, hne, he, hp, hpe⟩ := walkStep_some_elim store bmi (some s) p h
  injection hs2 with hss
  subst hss
  exact ⟨hne, e, he, hp, hpe⟩

theorem cycleLoop_true_of_reach (store : List Email) (bmi : MsgIndex) (child : String) :
    ∀ (k : Nat) (s : String) (visited : List String) (fuel : Nat) (v : String),
      s ≠ "" → k < fuel → walkN store bmi s k = some v → (v = child ∨ v ∈ visited) →
      cycleLoop store bmi child visited (some s) fuel = true := by
  intro k
  induction k with
  | zero =>
    intro s visited fuel v hs hf hw hv
    obtain ⟨rfl, -⟩ := walkN_zero_some store bmi s v hw
    match fuel, hf with
    | f + 1, _ =>
      rw [cycleLoop_succ, if_neg hs]
      by_cases hc : v = child
      · rw [if_pos hc]
      · rw [if_neg hc, if_pos (hv.resolve_left hc)]
  | succ k ih =>
    intro s visited fuel v hs hf hw hv
    rw [walkN_succ_front store bmi s hs k] at hw
    match ht : walkStep store bmi (some s) with
    | none => rw [ht] at hw; cases hw
    | some t =>
      rw [ht] at hw
      obtain ⟨-, e, he, hp, htne⟩ := walkStep_some_s_elim store bmi s t ht
      match fuel, hf with
      | f + 1, hf =>
        rw [cycleLoop_succ, if_neg hs]
        by_cases hc : s = child
        · rw [if_pos hc]
        · rw [if_neg hc]
          by_cases hmem : s ∈ visited
          · rw [if_pos hmem]
          · rw [if_neg hmem, he]
            show cycleLoop store bmi child (s :: visited) e.parent_id f = true
            rw [hp]
            exact ih t (s :: visited) f v htne (by omega) hw
              (by
                rcases hv with rfl | hm
                · exact Or.inl rfl
                · exact Or.inr (List.mem_cons_of_mem s hm))

theorem cycleLoop_true_of_repeat (store : List Email) (bmi : MsgIndex) (child : String) :
    ∀ (i j : Nat) (s : String) (visited : List String) (fuel : Nat) (v : String),
      i < j → j < fuel → s ≠ "" → walkN store bmi s i = some v →
      walkN store bmi s j = some v →
      cycleLoop store bmi child visited (some s) fuel = true := by
  intro i
  induction i with
  | zero =>
    intro j s visited fuel v hij hjf hs hwi hwj
    obtain ⟨rfl, -⟩ := walkN_zero_some store bmi s v hwi
    match j, hij with
    | j' + 1, _ =>
      rw [walkN_succ_front store bmi v hs j'] at hwj
      match ht : walkStep store bmi (some v) with
      | none => rw [ht] at hwj; cases hwj
      | some t =>
        rw [ht] at hwj
        obtain ⟨-, e, he, hp, htne⟩ := walkStep_some_s_elim store bmi v t ht
        match fuel, hjf with
        | f + 1, hjf =>
          rw [cycleLoop_succ, if_neg hs]
          by_cases hc : v = child
          · rw [if_pos hc]
          · rw [if_neg hc]
            by_cases hmem : v ∈ visited
            · rw [if_pos hmem]
            · rw [if_neg hmem, he]
              show cycleLoop store bmi child (v :: visited) e.parent_id f = true
              rw [hp]
              exact cycleLoop_true_of_reach store bmi child j' t (v :: visited) f v htne
                (by omega) hwj (Or.inr (List.mem_cons_self v visited))
  | succ i' ih =>
    intro j s visited fuel v hij hjf hs hwi hwj
    match j, hij with
    | j' + 1, hij =>
      rw [walkN_succ_front store bmi s hs i'] at hwi
      rw [walkN_succ_front store bmi s hs j'] at hwj
      match ht : walkStep store bmi (some s) with
      | none => rw [ht] at hwi; cases hwi
      | some t =>
        rw [ht] at hwi
        rw [ht] at hwj
        obtain ⟨-, e, he, hp, htne⟩ := walkStep_some_s_elim store bmi s t ht
        match fuel, hjf with
        | f + 1, hjf =>
          rw [cycleLoop_succ, if_neg hs]
          by_cases hc : s = child
          · rw [if_pos hc]
          · rw [if_neg hc]
            by_cases hmem : s ∈ visited
            · rw [if_pos hmem]
            · rw [if_neg hmem, he]
              show cycleLoop store bmi child (s :: visited) e.parent_id f = true
              rw [hp]
              exact ih j' t (s :: visited) f v (by omega) (by omega) htne hwi hwj

theorem distinct_walk_bound (store : List Email) (bmi : MsgIndex) (s : String) (k : Nat)
    (hsome : ∀ t ≤ k, ∃ u, walkN store bmi s t = some u)
    (hdist : ∀ a b, a < b → b ≤ k → walkN store bmi s a ≠ walkN store bmi s b) :
    k ≤ store.length := by
  classical
  have hmem : ∀ t : Fin (k + 1),
      ((walkN store bmi s t.1).getD "") ∈ (s :: parentVals store).toFinset := by
    intro t
    obtain ⟨u, hu⟩ := hsome t.1 (by omega)
    rw [hu]
    simp only [Option.getD_some, List.mem_toFinset, List.mem_cons]
    match ht : t.1, hu with
    | 0, hu =>
      obtain ⟨rfl, -⟩ := walkN_zero_some store bmi s u hu
      exact Or.inl rfl
    | t' + 1, hu =>
      exact Or.inr (walkN_mem_parentVals store bmi s t' u hu)
  have hinj : Set.InjOn (fun t : Fin (k + 1) => (walkN store bmi s t.1).getD "")
      (Finset.univ : Finset (Fin (k + 1))) := by
    intro a _ b _ hab
    by_contra hne
    obtain ⟨ua, hua⟩ := hsome a.1 (by omega)
    obtain ⟨ub, hub⟩ := hsome b.1 (by omega)
    simp only [hua, hub, Option.getD_some] at hab
    subst hab
    rcases Nat.lt_or_ge a.1 b.1 with h | h
    · exact hdist a.1 b.1 h (by omega) (by rw [hua, hub])
    · have : b.1 < a.1 := by
        rcases Nat.lt_or_ge b.1 a.1 with h2 | h2
        · exact h2
        · exact absurd (Fin.ext (by omega)) hne
      exact hdist b.1 a.1 this (by omega) (by rw [hua, hub])
  have hcard := Finset.card_le_card_of_injOn _ (fun t _ => hmem t) hinj
  simp only [Finset.card_univ, Fintype.card_fin] at hcard
  have h2 : (s :: parentVals store).toFinset.card ≤ (s :: parentVals store).length :=
    List.toFinset_card_le _
  have h3 : (parentVals store).length ≤ store.length := List.length_filterMap_le _ _
  simp only [List.length_cons] at h2
  omega

/-- C2: the cycle guard is sound. Whenever the walk of parent pointers
starting at the candidate parent reaches the child, or revisits a value it
already took, would_create_cycle answers true; in particular for two
records where A is B's parent, proposing B as A's new parent is rejected
(the witness instantiates exactly that configuration). -/
theorem c2_cycle_guard_rejects (store : List Email) (bmi : MsgIndex) (child parent : String)
    (h : (∃ k, walkN store bmi parent k = some child) ∨
      (∃ v i j, i < j ∧ walkN store bmi parent i = some v ∧
        walkN store bmi parent j = some v)) :
    would_create_cycle child parent bmi store = true := by
  classical
  have hpe : parent ≠ "" := by
    rintro rfl
    rcases h with ⟨k, hk⟩ | ⟨v, i, j, -, -, hj⟩
    · rw [walkN_empty] at hk; cases hk
    · rw [walkN_empty] at hj; cases hj
  set P : Nat → Prop := fun j =>
    walkN store bmi parent j = some child ∨
      ∃ i ∈ List.range j, walkN store bmi parent i = walkN store bmi parent j ∧
        (walkN store bmi parent j).isSome = true with hP
  have hdecP : DecidablePred P := by
    intro j
    rw [hP]
    infer_instance
  have hex : ∃ j, P j := by
    rcases h with ⟨k, hk⟩ | ⟨v, i, j, hij, hi, hj⟩
    · exact ⟨k, Or.inl hk⟩
    · exact ⟨j, Or.inr ⟨i, List.mem_range.mpr hij, by rw [hi, hj], by rw [hj]; rfl⟩⟩
  let j0 := @Nat.find P hdecP hex
  have hPj0 : P j0 := @Nat.find_spec P hdecP hex
  have hmin : ∀ m, m < j0 → ¬ P m := fun m hm => @Nat.find_min P hdecP hex m hm
  have hj0some : ∃ u, walkN store bmi parent j0 = some u := by
    rcases hPj0 with hreach | ⟨i, -, -, hsome⟩
    · exact ⟨child, hreach⟩
    · exact Option.isSome_iff_exists.mp hsome
  have hbound : j0 ≤ store.length + 1 := by
    rcases Nat.eq_zero_or_pos j0 with h0 | hpos
    · omega
    · have hk := distinct_walk_bound store bmi parent (j0 - 1)
        (fun t ht => walkN_some_of_le store bmi parent t j0 hj0some.choose
          hj0some.choose_spec (by omega))
        (fun a b hab hb => by
          intro heq
          obtain ⟨u, hu⟩ := walkN_some_of_le store bmi parent b j0 hj0some.choose
            hj0some.choose_spec (by omega)
          exact hmin b (by omega) (Or.inr ⟨a, List.mem_range.mpr hab, heq, by rw [hu]; rfl⟩))
      omega
  rcases hPj0 with hreach | ⟨i, hi, heq, hsome⟩
  · exact cycleLoop_true_of_reach store bmi child j0 parent [] (store.length + 2) child hpe
      (by omega) hreach (Or.inl rfl)
  · obtain ⟨v, hv⟩ := Option.isSome_iff_exists.mp hsome
    exact cycleLoop_true_of_repeat store bmi child i j0 parent [] (store.length + 2) v
      (List.mem_range.mp hi) (by omega) hpe (by rw [heq, hv]) hv

/-! Concrete two-record configuration of the spec's cycle-guard scenario:
record A is record B's parent, and B is proposed as A's new parent. -/

def msA : String := "A"

def msB : String := "B"

def c2recA : Email := { message_id := some msA }

def c2recB : Email := { message_id := some msB, parent_id := some msA }

def c2store : List Email := [c2recA, c2recB]

theorem c2_cycle_guard_rejects_witness :
    would_create_cycle msA msB (buildByMessageId c2store) c2store = true :=
  c2_cycle_guard_rejects c2store (buildByMessageId c2store) msA msB (Or.inl ⟨1, by decide⟩)

/-! Fuel-insensitivity of the guard loop: every id the loop examines beyond
its starting point is a truthy parent pointer of some record, each
examined id is added to `visited` and never examined again, so at most
`store.length + 1` ids are ever examined and fuel `store.length + 2` is
never exhausted. -/

theorem cycleLoop_none_fuel (store : List Email) (bmi : MsgIndex) (child : String)
    (visited : List String) : ∀ fuel, cycleLoop store bmi child visited none fuel = false := by
  intro fuel
  cases fuel <;> rfl

theorem cycleLoop_empty_fuel (store : List Email) (bmi : MsgIndex) (child : String)
    (visited : List String) :
    ∀ fuel, cycleLoop store bmi child visited (some "") fuel = false := by
  intro fuel
  cases fuel with
  | zero => rfl
  | succ f => rw [cycleLoop_succ]; simp

theorem length_filter_le_of_imp {p q : String → Bool}
    (himp : ∀ x, q x = true → p x = true) :
    ∀ l : List String, (l.filter q).length ≤ (l.filter p).length := by
  intro l
  induction l with
  | nil => simp
  | cons x xs ih =>
    rw [List.filter_cons, List.filter_cons]
    cases hq : q x
    · cases hp : p x
      · simpa using ih
      · simp only [if_true, List.length_cons]
        simp only [Bool.false_eq_true, if_false]
        exact Nat.le_succ_of_le ih
    · rw [himp x hq]
      simp only [if_true, List.length_cons]
      exact Nat.succ_le_succ ih

theorem length_filter_lt_of_mem {p q : String → Bool}
    (himp : ∀ x, q x = true → p x = true) (s : String) (hp : p s = true) (hq : q s = false) :
    ∀ l : List String, s ∈ l → (l.filter q).length < (l.filter p).length := by
  intro l hs
  induction l with
  | nil => cases hs
  | cons x xs ih =>
    rcases List.mem_cons.mp hs with rfl | hmem
    · rw [List.filter_cons, List.filter_cons, hq, hp]
      simpa using Nat.lt_succ_of_le (length_filter_le_of_imp himp xs)
    · cases hqx : q x
      · rw [List.filter_cons, List.filter_cons, hqx]
        cases hpx : p x
        · simpa using ih hmem
        · simpa using Nat.lt_succ_of_lt (ih hmem)
      · rw [List.filter_cons, List.filter_cons, hqx, himp x hqx]
        simpa using ih hmem

theorem cycleLoop_fuel_invariant (store : List Email) (bmi : MsgIndex) (child : String)
    (SS : List String) (hclosed : ∀ p, p ∈ parentVals store → p ∈ SS) :
    ∀ fuel1 fuel2 (visited : List String) (s : String), s ∈ SS →
      (SS.filter fun x => decide (x ∉ visited)).length < fuel1 →
      (SS.filter fun x => decide (x ∉ visited)).length < fuel2 →
      cycleLoop store bmi child visited (some s) fuel1 =
        cycleLoop store bmi child visited (some s) fuel2 := by
  intro fuel1
  induction fuel1 with
  | zero =>
    intro fuel2 visited s _ h1 _
    omega
  | succ f1 ih =>
    intro fuel2 visited s hsS h1 h2
    match fuel2, h2 with
    | f2 + 1, h2 =>
      rw [cycleLoop_succ, cycleLoop_succ]
      by_cases hs : s = ""
      · rw [if_pos hs, if_pos hs]
      · rw [if_neg hs, if_neg hs]
        by_cases hc : s = child
        · rw [if_pos hc, if_pos hc]
        · rw [if_neg hc, if_neg hc]
          by_cases hm : s ∈ visited
          · rw [if_pos hm, if_pos hm]
          · rw [if_neg hm, if_neg hm]
            match he : lookupRec store bmi s with
            | none => rfl
            | some e =>
              show cycleLoop store bmi child (s :: visited) e.parent_id f1 =
                cycleLoop store bmi child (s :: visited) e.parent_id f2
              have hlt : (SS.filter fun x => decide (x ∉ s :: visited)).length <
                  (SS.filter fun x => decide (x ∉ visited)).length := by
                apply length_filter_lt_of_mem _ s _ _ SS hsS
                · intro x hx
                  simp only [decide_eq_true_eq] at hx ⊢
                  exact fun hin => hx (List.mem_cons_of_mem s hin)
                · simpa using hm
                · simp
              match hp : e.parent_id with
              | none => rw [cycleLoop_none_fuel, cycleLoop_none_fuel]
              | some p =>
                by_cases hpe : p = ""
                · subst hpe
                  rw [cycleLoop_empty_fuel, cycleLoop_empty_fuel]
                · have hpSS : p ∈ SS :=
                    hclosed p (List.mem_filterMap.mpr
                      ⟨e, mem_of_lookupRec store bmi s e he, by rw [hp]; simp [hpe]⟩)
                  exact ih f2 (s :: visited) p hpSS (by omega) (by omega)

/-- C10: would_create_cycle terminates on every finite record collection
and every id pair, including pre-existing cycles and dangling references.
Expressed through the fuel model: the loop run with any fuel of at least
`store.length + 2` computes the same answer as would_create_cycle, because
the walk examines each id at most once before returning (at most the
record count plus one distinct ids, one extra step to stop). -/
theorem c10_cycle_guard_terminates (store : List Email) (bmi : MsgIndex)
    (child parent : String) (fuel : Nat) (h : store.length + 2 ≤ fuel) :
    cycleLoop store bmi child [] (some parent) fuel =
      would_create_cycle child parent bmi store := by
  unfold would_create_cycle
  have hlen : ((parent :: parentVals store).filter
      fun x => decide (x ∉ ([] : List String))).length ≤ store.length + 1 := by
    rw [List.filter_eq_self.mpr (fun a _ => by simp)]
    simp only [List.length_cons]
    have := List.length_filterMap_le
      (fun (e : Email) =>
        match e.parent_id with
        | some p => if p = "" then none else some p
        | none => none) store
    exact Nat.succ_le_succ this
  exact cycleLoop_fuel_invariant store bmi child (parent :: parentVals store)
    (fun p hp => List.mem_cons_of_mem parent hp) fuel (store.length + 2) [] parent
    (List.mem_cons_self parent _) (by omega) (by omega)

/-! Concrete pre-existing two-cycle for the termination witness: records C
and D point at each other, and the guard is asked about an unrelated id. -/

def msC : String := "C"

def msD : String := "D"

def msE : String := "E"

def c10store : List Email :=
  [{ message_id := some msC, parent_id := some msD },
   { message_id := some msD, parent_id := some msC }]

theorem c10_cycle_guard_terminates_witness :
    c10store.length + 2 ≤ 10 ∧
      cycleLoop c10store (buildByMessageId c10store) msE [] (some msC) 10 =
        would_create_cycle msE msC (buildByMessageId c10store) c10store :=
  ⟨by decide, c10_cycle_guard_terminates c10store (buildByMessageId c10store) msE msC 10
    (by decide)⟩

/-! Character-level lemmas for the normalizer. -/

theorem char_eq_of_toNat_eq (a b : Char) (h : a.toNat = b.toNat) : a = b := by
  rcases a with ⟨av, ha⟩
  rcases b with ⟨bv, hb⟩
  congr 1
  unfold Char.toNat at h
  simp only at h
  exact UInt32.toNat.inj h

theorem toNat_pyLowerChar_of_upper (c : Char) (h1 : 65 ≤ c.toNat) (h2 : c.toNat ≤ 90) :
    (pyLowerChar c).toNat = c.toNat + 32 := by
  unfold pyLowerChar
  rw [if_pos ⟨h1, h2⟩]
  have hv : (c.toNat + 32).isValidChar := Or.inl (by omega)
  rw [Char.ofNat, dif_pos hv]
  simp [Char.ofNatAux, Char.toNat, UInt32.toNat, UInt32.ofNatCore]

theorem pyLowerChar_of_not_upper (c : Char) (h : ¬(65 ≤ c.toNat ∧ c.toNat ≤ 90)) :
    pyLowerChar c = c := by
  unfold pyLowerChar
  rw [if_neg h]

theorem pyLowerChar_idem (c : Char) : pyLowerChar (pyLowerChar c) = pyLowerChar c := by
  by_cases h : 65 ≤ c.toNat ∧ c.toNat ≤ 90
  · have ht := toNat_pyLowerChar_of_upper c h.1 h.2
    apply pyLowerChar_of_not_upper
    rw [ht]
    omega
  · rw [pyLowerChar_of_not_upper c h, pyLowerChar_of_not_upper c h]

theorem isPySpace_false_of_ge65 (c : Char) (h : 65 ≤ c.toNat) : isPySpace c = false := by
  unfold isPySpace
  simp only [Bool.or_eq_false_iff, decide_eq_false_iff_not]
  omega

theorem isPySpace_pyLowerChar (c : Char) : isPySpace (pyLowerChar c) = isPySpace c := by
  by_cases h : 65 ≤ c.toNat ∧ c.toNat ≤ 90
  · rw [isPySpace_false_of_ge65 _ (by rw [toNat_pyLowerChar_of_upper c h.1 h.2]; omega),
      isPySpace_false_of_ge65 c h.1]
  · rw [pyLowerChar_of_not_upper c h]

theorem isTagChar_true_of_alpha (c : Char)
    (h : (65 ≤ c.toNat ∧ c.toNat ≤ 90) ∨ (97 ≤ c.toNat ∧ c.toNat ≤ 122)) :
    isTagChar c = true := by
  unfold isTagChar isWordChar
  simp only [Bool.or_eq_true, Bool.and_eq_true, decide_eq_true_eq]
  omega

theorem isTagChar_pyLowerChar (c : Char) : isTagChar (pyLowerChar c) = isTagChar c := by
  by_cases h : 65 ≤ c.toNat ∧ c.toNat ≤ 90
  · rw [isTagChar_true_of_alpha c (Or.inl h), isTagChar_true_of_alpha _ (Or.inr (by
      rw [toNat_pyLowerChar_of_upper c h.1 h.2]; omega))]
  · rw [pyLowerChar_of_not_upper c h]

theorem pyLowerChar_eq_iff (c t : Char) (h90 : ¬(65 ≤ t.toNat ∧ t.toNat ≤ 90))
    (h122 : ¬(97 ≤ t.toNat ∧ t.toNat ≤ 122)) : pyLowerChar c = t ↔ c = t := by
  by_cases h : 65 ≤ c.toNat ∧ c.toNat ≤ 90
  · have ht := toNat_pyLowerChar_of_upper c h.1 h.2
    constructor
    · intro he
      exfalso
      apply h122
      rw [← he, ht]
      omega
    · intro he
      exact absurd (he ▸ h) h90
  · rw [pyLowerChar_of_not_upper c h]

/-! List-level lemmas for the normalizer. -/

theorem dropWhile_length_le (p : Char → Bool) :
    ∀ l : List Char, (l.dropWhile p).length ≤ l.length := by
  intro l
  induction l with
  | nil => simp
  | cons x xs ih =>
    rw [List.dropWhile_cons]
    split
    · exact Nat.le_succ_of_le ih
    · simp

theorem dropWhile_dropWhile (p : Char → Bool) :
    ∀ l : List Char, (l.dropWhile p).dropWhile p = l.dropWhile p := by
  intro l
  induction l with
  | nil => simp
  | cons x xs ih =>
    rw [List.dropWhile_cons]
    split
    · exact ih
    · next h => rw [List.dropWhile_cons, if_neg h]

theorem exists_append_dropWhile (p : Char → Bool) :
    ∀ l : List Char, ∃ t, l = t ++ l.dropWhile p := by
  intro l
  induction l with
  | nil => exact ⟨[], rfl⟩
  | cons x xs ih =>
    rw [List.dropWhile_cons]
    split
    · obtain ⟨t, ht⟩ := ih
      exact ⟨x :: t, by rw [List.cons_append, ← ht]⟩
    · exact ⟨[], rfl⟩

theorem dropWhile_eq_self_append (p : Char → Bool) (y t : List Char)
    (h : (y ++ t).dropWhile p = y ++ t) : y.dropWhile p = y := by
  cases y with
  | nil => rfl
  | cons c y' =>
    rw [List.cons_append, List.dropWhile_cons] at h
    by_cases hp : p c = true
    · rw [if_pos hp] at h
      have hle := dropWhile_length_le p (y' ++ t)
      have hlen := congrArg List.length h
      simp only [List.length_cons] at hlen
      omega
    · rw [List.dropWhile_cons, if_neg hp]

theorem pyStrip_eq_self (x : List Char) (h1 : x.dropWhile isPySpace = x)
    (h2 : x.reverse.dropWhile isPySpace = x.reverse) : pyStrip x = x := by
  unfold pyStrip
  rw [h1, h2, List.reverse_reverse]

theorem pyStrip_idem (l : List Char) : pyStrip (pyStrip l) = pyStrip l := by
  have hdu : (l.dropWhile isPySpace).dropWhile isPySpace = l.dropWhile isPySpace :=
    dropWhile_dropWhile isPySpace l
  obtain ⟨t, ht⟩ := exists_append_dropWhile isPySpace (l.dropWhile isPySpace).reverse
  have hu2 : l.dropWhile isPySpace =
      ((l.dropWhile isPySpace).reverse.dropWhile isPySpace).reverse ++ t.reverse := by
    have h2 := congrArg List.reverse ht
    simpa [List.reverse_append] using h2
  have hvd : ((l.dropWhile isPySpace).reverse.dropWhile isPySpace).reverse.dropWhile isPySpace =
      ((l.dropWhile isPySpace).reverse.dropWhile isPySpace).reverse := by
    apply dropWhile_eq_self_append isPySpace _ t.reverse
    rw [← hu2]
    exact hdu
  apply pyStrip_eq_self
  · exact hvd
  · have hr : (pyStrip l).reverse = (l.dropWhile isPySpace).reverse.dropWhile isPySpace := by
      show ((((l.dropWhile isPySpace).reverse.dropWhile isPySpace)).reverse).reverse = _
      rw [List.reverse_reverse]
    rw [hr]
    exact dropWhile_dropWhile isPySpace (l.dropWhile isPySpace).reverse

theorem pyStrip_length_le (l : List Char) : (pyStrip l).length ≤ l.length := by
  unfold pyStrip
  calc ((l.dropWhile isPySpace).reverse.dropWhile isPySpace).reverse.length
      = ((l.dropWhile isPySpace).reverse.dropWhile isPySpace).length := List.length_reverse _
    _ ≤ (l.dropWhile isPySpace).reverse.length := dropWhile_length_le _ _
    _ = (l.dropWhile isPySpace).length := List.length_reverse _
    _ ≤ l.length := dropWhile_length_le _ _

theorem isPySpace_comp_pyLowerChar : (fun c => isPySpace (pyLowerChar c)) = isPySpace := by
  funext c
  exact isPySpace_pyLowerChar c

theorem dropWhile_isPySpace_map (l : List Char) :
    (l.map pyLowerChar).dropWhile isPySpace = (l.dropWhile isPySpace).map pyLowerChar := by
  rw [List.dropWhile_map]
  congr 1
  show l.dropWhile (fun c => isPySpace (pyLowerChar c)) = _
  rw [isPySpace_comp_pyLowerChar]

theorem pyStrip_map (l : List Char) :
    pyStrip (l.map pyLowerChar) = (pyStrip l).map pyLowerChar := by
  unfold pyStrip
  rw [dropWhile_isPySpace_map, ← List.map_reverse, dropWhile_isPySpace_map, ← List.map_reverse]

theorem map_pyLowerChar_idem (l : List Char) :
    (l.map pyLowerChar).map pyLowerChar = l.map pyLowerChar := by
  rw [List.map_map]
  congr 1
  funext c
  exact pyLowerChar_idem c

/-! Shrinking: every successful prefix strip removes at least one
character, so each changed pass of the normalizer loop strictly shortens
the subject. -/

theorem stripWordPat_some_length :
    ∀ (w l r : List Char), stripWordPat w l = some r → r.length + w.length ≤ l.length := by
  intro w
  induction w with
  | nil =>
    intro l r h
    simp only [stripWordPat, Option.some.injEq] at h
    subst h
    simpa using dropWhile_length_le isPySpace l
  | cons pc pw ih =>
    intro l r h
    cases l with
    | nil => simp [stripWordPat] at h
    | cons c cs =>
      simp only [stripWordPat] at h
      by_cases hc : pyLowerChar c = pc
      · rw [if_pos hc] at h
        have := ih cs r h
        simp only [List.length_cons]
        omega
      · rw [if_neg hc] at h
        cases h

def Shrinks (f : List Char → Option (List Char)) : Prop :=
  ∀ l r, f l = some r → r.length < l.length

theorem shrinks_stripWordPat (pc : Char) (pw : List Char) : Shrinks (stripWordPat (pc :: pw)) := by
  intro l r h
  have := stripWordPat_some_length (pc :: pw) l r h
  simp only [List.length_cons] at this
  omega

theorem shrinks_stripBracketPat : Shrinks stripBracketPat := by
  intro l r h
  cases l with
  | nil => simp [stripBracketPat] at h
  | cons c rest =>
    simp only [stripBracketPat] at h
    by_cases hc : c = '['
    · rw [if_pos hc] at h
      by_cases he : (rest.takeWhile isTagChar).isEmpty
      · rw [if_pos he] at h
        cases h
      · rw [if_neg he] at h
        match hd : rest.dropWhile isTagChar with
        | [] => rw [hd] at h; cases h
        | d :: tail =>
          rw [hd] at h
          have h2 : (if d = ']' then some (tail.dropWhile isPySpace) else none) = some r := h
          by_cases hdd : d = ']'
          · rw [if_pos hdd] at h2
            injection h2 with h2
            subst h2
            have h1 : (tail.dropWhile isPySpace).length ≤ tail.length :=
              dropWhile_length_le _ _
            have h2 : (d :: tail).length ≤ rest.length := by
              rw [← hd]
              exact dropWhile_length_le isTagChar rest
            simp only [List.length_cons] at h2 ⊢
            omega
          · rw [if_neg hdd] at h2
            cases h2
    · rw [if_neg hc] at h
      cases h

theorem stripperList_shrinks : ∀ f ∈ stripperList, Shrinks f := by
  intro f hf
  simp only [stripperList, List.mem_cons, List.not_mem_nil, or_false] at hf
  rcases hf with rfl | rfl | rfl | rfl | rfl | rfl | rfl
  · exact shrinks_stripWordPat 'r' ['e', ':']
  · exact shrinks_stripWordPat 'r' ['e', ':']
  · exact shrinks_stripWordPat 'f' ['w', 'd', ':']
  · exact shrinks_stripWordPat 'f' ['w', 'd', ':']
  · exact shrinks_stripWordPat 'f' ['w', ':']
  · exact shrinks_stripWordPat 'f' ['w', ':']
  · exact shrinks_stripBracketPat

/-! Behavior of one stripping pass in terms of its stripper list. -/

theorem applyPat_snd_true (f : List Char → Option (List Char)) (acc : List Char × Bool)
    (h : acc.2 = true) : (applyPat f acc).2 = true := by
  unfold applyPat
  match hf : f acc.1 with
  | some r => rfl
  | none => exact h

theorem foldl_applyPat_snd_true (fs : List (List Char → Option (List Char))) :
    ∀ acc : List Char × Bool, acc.2 = true →
      (fs.foldl (fun a f => applyPat f a) acc).2 = true := by
  induction fs with
  | nil => intro acc h; exact h
  | cons f fs ih =>
    intro acc h
    rw [List.foldl_cons]
    exact ih (applyPat f acc) (applyPat_snd_true f acc h)

theorem foldl_applyPat_false_elim (fs : List (List Char → Option (List Char))) :
    ∀ acc : List Char × Bool, (fs.foldl (fun a f => applyPat f a) acc).2 = false →
      fs.foldl (fun a f => applyPat f a) acc = acc ∧ ∀ f ∈ fs, f acc.1 = none := by
  induction fs with
  | nil =>
    intro acc h
    exact ⟨rfl, by simp⟩
  | cons f fs ih =>
    intro acc h
    rw [List.foldl_cons] at h ⊢
    have hfa : applyPat f acc = acc ∧ f acc.1 = none := by
      unfold applyPat
      match hf : f acc.1 with
      | some r =>
        exfalso
        have := foldl_applyPat_snd_true fs (applyPat f acc)
          (by unfold applyPat; rw [hf])
        rw [this] at h
        cases h
      | none => exact ⟨rfl, rfl⟩
    obtain ⟨heq, hall⟩ := ih (applyPat f acc) h
    rw [hfa.1] at hall
    refine ⟨by rw [heq, hfa.1], ?_⟩
    intro g hg
    rcases List.mem_cons.mp hg with rfl | hmem
    · exact hfa.2
    · exact hall g hmem

theorem foldl_applyPat_of_none (fs : List (List Char → Option (List Char))) :
    ∀ acc : List Char × Bool, (∀ f ∈ fs, f acc.1 = none) →
      fs.foldl (fun a f => applyPat f a) acc = acc := by
  induction fs with
  | nil => intro acc _; rfl
  | cons f fs ih =>
    intro acc h
    rw [List.foldl_cons]
    have hfa : applyPat f acc = acc := by
      unfold applyPat
      rw [h f (List.mem_cons_self f fs)]
    rw [hfa]
    exact ih acc fun g hg => h g (List.mem_cons_of_mem f hg)

theorem foldl_applyPat_length (fs : List (List Char → Option (List Char)))
    (hfs : ∀ f ∈ fs, Shrinks f) (L : Nat) :
    ∀ acc : List Char × Bool,
      acc.1.length ≤ L → (acc.2 = true → acc.1.length < L) →
      (fs.foldl (fun a f => applyPat f a) acc).1.length ≤ L ∧
        ((fs.foldl (fun a f => applyPat f a) acc).2 = true →
          (fs.foldl (fun a f => applyPat f a) acc).1.length < L) := by
  induction fs with
  | nil => intro acc h1 h2; exact ⟨h1, h2⟩
  | cons f fs ih =>
    intro acc h1 h2
    rw [List.foldl_cons]
    have hstep : (applyPat f acc).1.length ≤ L ∧
        ((applyPat f acc).2 = true → (applyPat f acc).1.length < L) := by
      unfold applyPat
      match hf : f acc.1 with
      | some r =>
        have hr : r.length < acc.1.length := hfs f (List.mem_cons_self f fs) acc.1 r hf
        have hps : (pyStrip r).length ≤ r.length := pyStrip_length_le r
        exact ⟨by simp only; omega, fun _ => by simp only; omega⟩
      | none => exact ⟨h1, h2⟩
    exact ih (fun g hg => hfs g (List.mem_cons_of_mem f hg)) (applyPat f acc) hstep.1 hstep.2

theorem foldl_applyPat_stripped (fs : List (List Char → Option (List Char))) :
    ∀ acc : List Char × Bool, pyStrip acc.1 = acc.1 →
      pyStrip (fs.foldl (fun a f => applyPat f a) acc).1 =
        (fs.foldl (fun a f => applyPat f a) acc).1 := by
  induction fs with
  | nil => intro acc h; exact h
  | cons f fs ih =>
    intro acc h
    rw [List.foldl_cons]
    apply ih
    unfold applyPat
    match hf : f acc.1 with
    | some r => exact pyStrip_idem r
    | none => exact h

/-! Corollaries about one pass and the stripping loop. -/

theorem normPass_snd_true_shrinks (l : List Char) (h : (normPass l).2 = true) :
    (normPass l).1.length < l.length := by
  have := foldl_applyPat_length stripperList stripperList_shrinks l.length (l, false)
    (by simp) (by simp)
  exact this.2 h

theorem normPass_false_elim (l : List Char) (h : (normPass l).2 = false) :
    (normPass l).1 = l ∧ ∀ f ∈ stripperList, f l = none := by
  obtain ⟨heq, hall⟩ := foldl_applyPat_false_elim stripperList (l, false) h
  exact ⟨by rw [show normPass l = (l, false) from heq], hall⟩

theorem normPass_of_none (l : List Char) (h : ∀ f ∈ stripperList, f l = none) :
    normPass l = (l, false) :=
  foldl_applyPat_of_none stripperList (l, false) h

theorem normPass_stripped (l : List Char) (h : pyStrip l = l) :
    pyStrip (normPass l).1 = (normPass l).1 :=
  foldl_applyPat_stripped stripperList (l, false) h

theorem normLoop_succ (fuel : Nat) (l : List Char) :
    normLoop (fuel + 1) l =
      if (normPass l).2 then normLoop fuel (normPass l).1 else (normPass l).1 := rfl

theorem normLoop_fix : ∀ (fuel : Nat) (l : List Char), l.length < fuel →
    (normPass (normLoop fuel l)).2 = false := by
  intro fuel
  induction fuel with
  | zero => intro l h; omega
  | succ f ih =>
    intro l h
    rw [normLoop_succ]
    cases hp : (normPass l).2
    · simp only [if_false, Bool.false_eq_true]
      rw [(normPass_false_elim l hp).1, hp]
    · simp only [if_true]
      exact ih (normPass l).1 (by have := normPass_snd_true_shrinks l hp; omega)

theorem normLoop_stripped : ∀ (fuel : Nat) (l : List Char), pyStrip l = l →
    pyStrip (normLoop fuel l) = normLoop fuel l := by
  intro fuel
  induction fuel with
  | zero => intro l h; exact h
  | succ f ih =>
    intro l h
    rw [normLoop_succ]
    cases hp : (normPass l).2
    · simp only [if_false, Bool.false_eq_true]
      exact normPass_stripped l h
    · simp only [if_true]
      exact ih (normPass l).1 (normPass_stripped l h)

/-! No-match on a string transfers to its lower-cased image: all the
patterns carry re.IGNORECASE (the bracket class is case-closed), so
lower-casing cannot create a new prefix match. -/

theorem stripWordPat_map_none :
    ∀ (w l : List Char), stripWordPat w l = none →
      stripWordPat w (l.map pyLowerChar) = none := by
  intro w
  induction w with
  | nil => intro l h; simp [stripWordPat] at h
  | cons pc pw ih =>
    intro l h
    cases l with
    | nil => simp [stripWordPat]
    | cons c cs =>
      simp only [List.map_cons, stripWordPat] at h ⊢
      by_cases hc : pyLowerChar c = pc
      · rw [if_pos hc] at h
        rw [if_pos (by rw [pyLowerChar_idem]; exact hc)]
        exact ih cs h
      · rw [if_neg (by rw [pyLowerChar_idem]; exact hc)]

theorem isTagChar_comp_pyLowerChar : isTagChar ∘ pyLowerChar = isTagChar := by
  funext x
  exact isTagChar_pyLowerChar x

theorem takeWhile_isTagChar_map (l : List Char) :
    (l.map pyLowerChar).takeWhile isTagChar = (l.takeWhile isTagChar).map pyLowerChar := by
  rw [List.takeWhile_map, isTagChar_comp_pyLowerChar]

theorem dropWhile_isTagChar_map (l : List Char) :
    (l.map pyLowerChar).dropWhile isTagChar = (l.dropWhile isTagChar).map pyLowerChar := by
  rw [List.dropWhile_map, isTagChar_comp_pyLowerChar]

theorem stripBracketPat_map_none (l : List Char) (h : stripBracketPat l = none) :
    stripBracketPat (l.map pyLowerChar) = none := by
  cases l with
  | nil => rfl
  | cons c rest =>
    simp only [List.map_cons, stripBracketPat] at h ⊢
    have hbr : pyLowerChar c = '[' ↔ c = '[' := pyLowerChar_eq_iff c '[' (by decide) (by decide)
    by_cases hc : c = '['
    · rw [if_pos hc] at h
      rw [if_pos (hbr.mpr hc)]
      by_cases he : (rest.takeWhile isTagChar).isEmpty
      · rw [if_pos (by
          rw [takeWhile_isTagChar_map]
          rcases List.isEmpty_iff.mp he with hnil
          rw [hnil]
          rfl)]
      · rw [if_neg he] at h
        rw [if_neg (by
          rw [takeWhile_isTagChar_map]
          intro hmap
          apply he
          rcases List.isEmpty_iff.mp hmap with hnil
          rcases hx : rest.takeWhile isTagChar with _ | ⟨y, ys⟩
          · rfl
          · rw [hx] at hnil; cases hnil)]
        rw [dropWhile_isTagChar_map]
        match hd : rest.dropWhile isTagChar with
        | [] => rfl
        | d :: tail =>
          rw [hd] at h
          have h2 : (if d = ']' then some (tail.dropWhile isPySpace) else none) = none := h
          by_cases hdd : d = ']'
          · rw [if_pos hdd] at h2
            cases h2
          · rw [List.map_cons]
            have : (if pyLowerChar d = ']' then
                some ((tail.map pyLowerChar).dropWhile isPySpace) else none) = none := by
              rw [if_neg (fun hx =>
                hdd ((pyLowerChar_eq_iff d ']' (by decide) (by decide)).mp hx))]
            exact this
    · rw [if_neg hc] at h
      rw [if_neg (fun hx => hc (hbr.mp hx))]

/-- C4: the subject normalizer is pure (it is a function), idempotent, and
maps empty or absent input (both falsy, handled by the same guard) to the
empty string. -/
theorem c4_normalize_subject_idempotent :
    (∀ s : String, normalize_subject (normalize_subject s) = normalize_subject s) ∧
      normalize_subject "" = "" := by
  constructor
  · intro s
    by_cases hs : s = ""
    · subst hs
      rfl
    · have hstr0 : pyStrip (pyStrip s.data) = pyStrip s.data := pyStrip_idem s.data
      have hnorm : normalize_subject s =
          String.mk ((normLoop ((pyStrip s.data).length + 1) (pyStrip s.data)).map
            pyLowerChar) := by
        simp only [normalize_subject, if_neg hs]
        rw [normLoop_stripped _ _ hstr0]
      rw [hnorm]
      have hstr : pyStrip (normLoop ((pyStrip s.data).length + 1) (pyStrip s.data)) =
          normLoop ((pyStrip s.data).length + 1) (pyStrip s.data) :=
        normLoop_stripped _ _ hstr0
      have hfix : (normPass (normLoop ((pyStrip s.data).length + 1) (pyStrip s.data))).2 =
          false :=
        normLoop_fix _ _ (by omega)
      have hnone := (normPass_false_elim _ hfix).2
      set r := normLoop ((pyStrip s.data).length + 1) (pyStrip s.data) with hrdef
      by_cases hre : r = []
      · rw [hre]
        rfl
      · have hne : String.mk (r.map pyLowerChar) ≠ "" := by
          intro hcon
          apply hre
          have hdata := congrArg String.data hcon
          simpa using hdata
        have hnone2 : ∀ f ∈ stripperList, f (r.map pyLowerChar) = none := by
          intro f hf
          have h0 := hnone f hf
          simp only [stripperList, List.mem_cons, List.not_mem_nil, or_false] at hf
          rcases hf with rfl | rfl | rfl | rfl | rfl | rfl | rfl
          · exact stripWordPat_map_none _ _ h0
          · exact stripWordPat_map_none _ _ h0
          · exact stripWordPat_map_none _ _ h0
          · exact stripWordPat_map_none _ _ h0
          · exact stripWordPat_map_none _ _ h0
          · exact stripWordPat_map_none _ _ h0
          · exact stripBracketPat_map_none _ h0
        have ht0 : pyStrip (String.mk (r.map pyLowerChar)).data = r.map pyLowerChar := by
          show pyStrip (r.map pyLowerChar) = _
          rw [pyStrip_map, hstr]
        have hl2 : normLoop ((r.map pyLowerChar).length + 1) (r.map pyLowerChar) =
            r.map pyLowerChar := by
          rw [normLoop_succ, normPass_of_none _ hnone2]
          simp
        simp only [normalize_subject, if_neg hne]
        rw [ht0, hl2, pyStrip_map, hstr, map_pyLowerChar_idem]
  · rfl

/-! Helpers for reasoning in the Except monad. -/

theorem except_bind_ok {α β : Type} (x : Except String α) (f : α → Except String β) (b : β) :
    (x >>= f) = .ok b ↔ ∃ a, x = .ok a ∧ f a = .ok b := by
  cases x with
  | error e =>
    constructor
    · intro h
      simp [Bind.bind, Except.bind] at h
    · rintro ⟨a, ha, -⟩
      cases ha
  | ok a =>
    constructor
    · intro h
      exact ⟨a, rfl, h⟩
    · rintro ⟨a2, ha, hf⟩
      cases ha
      exact hf

theorem getKey_ok {α : Type} (v : Option α) (msg : String) (a : α) :
    getKey v msg = .ok a ↔ v = some a := by
  cases v <;> simp [getKey]

/-- Elimination principle for one step of the matching loop: either the
record was skipped or left unmatched and the state is unchanged, or an
eligible winner `j` was found and exactly the claimed mutation happened. -/
theorem processOrphan_cases (groups : String → List Nat) (store : List Email) (bmi : MsgIndex)
    (i : Nat) (st' : List Email × MsgIndex)
    (h : processOrphan groups store bmi i = .ok st') :
    st' = (store, bmi) ∨
      ∃ e j bp pmsg omsg sc,
        store.get? i = some e ∧ e.orphan_status = some st_orphan_reply ∧
        e.normalized_subject ≠ "" ∧ 1 < (groups e.normalized_subject).length ∧
        findBest store bmi e (parse_date e.date_parsed) (groups e.normalized_subject)
          (none, -1, none) = .ok sc ∧
        sc.1 = some j ∧ store.get? j = some bp ∧ bp.message_id = some pmsg ∧
        e.message_id = some omsg ∧
        st' = ((store.set i
          { e with parent_id := some pmsg, orphan_status := some st_matched_by_subject,
                   match_score := some sc.2.1 }).set j
          (if (some omsg) ∈ bp.children_ids then bp
           else { bp with children_ids := bp.children_ids ++ [some omsg] }),
          (omsg, i) :: bmi) := by
  unfold processOrphan at h
  match hgi : store.get? i with
  | none =>
    rw [hgi] at h
    have h2 : (Except.ok (store, bmi) : Except String (List Email × MsgIndex)) = .ok st' := h
    injection h2 with h2
    exact Or.inl h2.symm
  | some e =>
    rw [hgi] at h
    simp only [] at h
    by_cases h1 : e.orphan_status ≠ some st_orphan_reply
    · rw [if_pos h1] at h
      injection h with h
      exact Or.inl h.symm
    · rw [if_neg h1] at h
      by_cases h2 : e.normalized_subject = ""
      · rw [if_pos h2] at h
        injection h with h
        exact Or.inl h.symm
      · rw [if_neg h2] at h
        by_cases h3 : (groups e.normalized_subject).length ≤ 1
        · rw [if_pos h3] at h
          injection h with h
          exact Or.inl h.symm
        · rw [if_neg h3] at h
          obtain ⟨best, hfb, hbody⟩ := (except_bind_ok _ _ _).mp h
          match hb : best.1 with
          | none =>
            rw [hb] at hbody
            simp only [] at hbody
            have h4 : (Except.ok (store, bmi) : Except String (List Email × MsgIndex)) =
              .ok st' := hbody
            injection h4 with h4
            exact Or.inl h4.symm
          | some j =>
            rw [hb] at hbody
            simp only [] at hbody
            match hgj : store.get? j with
            | none =>
              rw [hgj] at hbody
              simp only [] at hbody
              have h4 : (Except.ok (store, bmi) : Except String (List Email × MsgIndex)) =
                .ok st' := hbody
              injection h4 with h4
              exact Or.inl h4.symm
            | some bp =>
              rw [hgj] at hbody
              simp only [] at hbody
              obtain ⟨pmsg, hpm, hbody2⟩ := (except_bind_ok _ _ _).mp hbody
              obtain ⟨omsg, hom, hbody3⟩ := (except_bind_ok _ _ _).mp hbody2
              have h4 := hbody3
              injection h4 with h4
              refine Or.inr ⟨e, j, bp, pmsg, omsg, best, rfl, by simpa using h1, h2,
                by omega, hfb, hb, hgj, (getKey_ok _ _ _).mp hpm, (getKey_ok _ _ _).mp hom,
                h4.symm⟩

def specTpWalk (maxDays : Int) :
    List (Nat × Nat) → Nat × Nat → List Email × MsgIndex →
      Except String (List Email × MsgIndex)
  | [], _, st => .ok st
  | (li, ld) :: rest, (ci, cd), (store, bmi) =>
    let days : Int := Int.fdiv ((ld : Int) - (cd : Int)) 86400
    if days ≤ maxDays then
      match store.get? li, store.get? ci with
      | some later, some canon => do
        let lmsg ← getKey later.message_id keyErrMessageId
        let cmsg ← getKey canon.message_id keyErrMessageId
        if would_create_cycle lmsg cmsg bmi store then
          specTpWalk maxDays rest (ci, cd) (store, bmi)
        else
          let later2 :=
            { later with
              parent_id := some cmsg
              orphan_status := some st_matched_by_time_proximity
              time_proximity_days := some days }
          let store2 := store.set li later2
          let canon2 :=
            if (some lmsg) ∈ canon.children_ids then canon
            else { canon with children_ids := canon.children_ids ++ [some lmsg] }
          specTpWalk maxDays rest (ci, cd) (store2.set ci canon2, (lmsg, li) :: bmi)
      | _, _ => .ok (store, bmi)
    else specTpWalk maxDays rest (li, ld) (store, bmi)

theorem tpWalk_cons (maxDays : Int) (li ld ci cd : Nat) (rest : List (Nat × Nat))
    (store : List Email) (bmi : MsgIndex) :
    tpWalk maxDays ((li, ld) :: rest) (ci, cd) (store, bmi) =
      (if Int.fdiv ((ld : Int) - (cd : Int)) 86400 > maxDays then
        tpWalk maxDays rest (li, ld) (store, bmi)
      else
        match store.get? li, store.get? ci with
        | some later, some canon => do
          let lmsg ← getKey later.message_id keyErrMessageId
          let cmsg ← getKey canon.message_id keyErrMessageId
          if would_create_cycle lmsg cmsg bmi store then
            tpWalk maxDays rest (ci, cd) (store, bmi)
          else
            let later2 :=
              { later with
                parent_id := some cmsg
                orphan_status := some st_matched_by_time_proximity
                time_proximity_days := some (Int.fdiv ((ld : Int) - (cd : Int)) 86400) }
            let store2 := store.set li later2
            let canon2 :=
              if (some lmsg) ∈ canon.children_ids then canon
              else { canon with children_ids := canon.children_ids ++ [some lmsg] }
            tpWalk maxDays rest (ci, cd) (store2.set ci canon2, (lmsg, li) :: bmi)
        | _, _ => .ok (store, bmi)) := rfl

theorem specTpWalk_cons (maxDays : Int) (li ld ci cd : Nat) (rest : List (Nat × Nat))
    (store : List Email) (bmi : MsgIndex) :
    specTpWalk maxDays ((li, ld) :: rest) (ci, cd) (store, bmi) =
      (if Int.fdiv ((ld : Int) - (cd : Int)) 86400 ≤ maxDays then
        match store.get? li, store.get? ci with
        | some later, some canon => do
          let lmsg ← getKey later.message_id keyErrMessageId
          let cmsg ← getKey canon.message_id keyErrMessageId
          if would_create_cycle lmsg cmsg bmi store then
            specTpWalk maxDays rest (ci, cd) (store, bmi)
          else
            let later2 :=
              { later with
                parent_id := some cmsg
                orphan_status := some st_matched_by_time_proximity
                time_proximity_days := some (Int.fdiv ((ld : Int) - (cd : Int)) 86400) }
            let store2 := store.set li later2
            let canon2 :=
              if (some lmsg) ∈ canon.children_ids then canon
              else { canon with children_ids := canon.children_ids ++ [some lmsg] }
            specTpWalk maxDays rest (ci, cd) (store2.set ci canon2, (lmsg, li) :: bmi)
        | _, _ => .ok (store, bmi)
      else specTpWalk maxDays rest (li, ld) (store, bmi)) := rfl

theorem tpWalk_eq_specTpWalk (maxDays : Int) (l : List (Nat × Nat)) :
    ∀ (c : Nat × Nat) (st : List Email × MsgIndex),
      tpWalk maxDays l c st = specTpWalk maxDays l c st := by
  induction l with
  | nil => intro c st; obtain ⟨ci, cd⟩ := c; obtain ⟨store, bmi⟩ := st; rfl
  | cons p rest ih =>
    intro c st
    obtain ⟨li, ld⟩ := p
    obtain ⟨ci, cd⟩ := c
    obtain ⟨store, bmi⟩ := st
    rw [tpWalk_cons, specTpWalk_cons]
    rcases lt_or_le maxDays (Int.fdiv ((ld : Int) - (cd : Int)) 86400) with hgt | hle
    · rw [if_pos hgt, if_neg (not_le.mpr hgt)]
      exact ih _ _
    · rw [if_neg (not_lt.mpr hle), if_pos hle]
      match hli : store.get? li, hci : store.get? ci with
      | none, none => rfl
      | none, some canon => rfl
      | some later, none => rfl
      | some later, some canon =>
        simp only []
        match hlm : later.message_id with
        | none => rfl
        | some lmsg =>
          simp only [getKey, Bind.bind, Except.bind]
          match hcm : canon.message_id with
          | none => rfl
          | some cmsg =>
            simp only []
            by_cases hcy : would_create_cycle lmsg cmsg bmi store
            · rw [if_pos hcy, if_pos hcy]
              exact ih _ _
            · rw [if_neg hcy, if_neg hcy]
              exact ih _ _

/-! Concrete Scenario 3 configuration: three true_root records sharing a
normalized subject longer than 3 characters, dated day 1, day 2 and
day 10. -/

def nsCL : String := "clipper chip"

def c5rec1 : Email :=
  { id := some "t1", message_id := some "tm1", date_parsed := some "1993-06-01",
    normalized_subject := nsCL, orphan_status := some st_true_root }

def c5rec2 : Email :=
  { id := some "t2", message_id := some "tm2", date_parsed := some "1993-06-02",
    normalized_subject := nsCL, orphan_status := some st_true_root }

def c5rec3 : Email :=
  { id := some "t3", message_id := some "tm3", date_parsed := some "1993-06-10",
    normalized_subject := nsCL, orphan_status := some st_true_root }

def c5store : List Email := [c5rec1, c5rec2, c5rec3]

/-- C5: the Time-Proximity Merger's canonical-pointer walk coincides with
the spec's description (`specTpWalk`, written from the spec words: a
member within the window is linked under the canonical subject to the
cycle guard with orphan_status matched_by_time_proximity, a member beyond
the window becomes the new canonical), and on three true_root records
sharing a normalized subject longer than 3 characters dated day 1, day 2
and day 10 with a 3-day window, the day-2 record is linked under the
day-1 record (gap of 1 day recorded) while the day-10 record is left
unchanged as its own new canonical root. -/
theorem c5_time_proximity_merger :
    (∀ (maxDays : Int) (l : List (Nat × Nat)) (c : Nat × Nat) (st : List Email × MsgIndex),
      tpWalk maxDays l c st = specTpWalk maxDays l c st) ∧
    merge_by_time_proximity c5store 3 =
      .ok [{ c5rec1 with children_ids := [some "tm2"] },
           { c5rec2 with parent_id := some "tm1",
                         orphan_status := some st_matched_by_time_proximity,
                         time_proximity_days := some 1 },
           c5rec3] :=
  ⟨fun maxDays l c st => tpWalk_eq_specTpWalk maxDays l c st, rfl⟩

theorem processOrphan_frame (groups : String → List Nat) (store : List Email) (bmi : MsgIndex)
    (i : Nat) (st2 : List Email × MsgIndex)
    (h : processOrphan groups store bmi i = .ok st2) (k : Nat) (e : Email)
    (hk : store.get? k = some e) (hst : e.orphan_status ≠ some st_orphan_reply) :
    ∃ tail, st2.1.get? k = some { e with children_ids := e.children_ids ++ tail } := by
  rcases processOrphan_cases groups store bmi i st2 h with heq |
    ⟨e0, j, bp, pmsg, omsg, sc, hgi, hst0, hns, hlen, hfb, hsc, hgj, hpm, hom, heq⟩
  · refine ⟨[], ?_⟩
    rw [heq, List.append_nil]
    exact hk
  · by_cases hki : k = i
    · subst hki
      rw [hgi] at hk
      injection hk with hk
      exact absurd (hk ▸ hst0) hst
    · by_cases hkj : k = j
      · subst hkj
        rw [hgj] at hk
        injection hk with hk
        have hjl : k < store.length := by
          by_contra hcon
          rw [List.get?_eq_none.mpr (by omega)] at hgj
          cases hgj
        subst hk
        by_cases hmem : (some omsg) ∈ bp.children_ids
        · refine ⟨[], ?_⟩
          rw [heq]
          show (((store.set i _).set k _).get? k) = _
          rw [List.get?_set_eq_of_lt _ (by rw [List.length_set]; exact hjl),
            if_pos hmem, List.append_nil]
        · refine ⟨[some omsg], ?_⟩
          rw [heq]
          show (((store.set i _).set k _).get? k) = _
          rw [List.get?_set_eq_of_lt _ (by rw [List.length_set]; exact hjl), if_neg hmem]
      · refine ⟨[], ?_⟩
        rw [heq]
        show (((store.set i _).set j _).get? k) = _
        rw [List.get?_set_ne _ _ (Ne.symm hkj), List.get?_set_ne _ _ (Ne.symm hki),
          List.append_nil]
        exact hk

theorem matchLoop_frame (groups : String → List Nat) :
    ∀ (idxs : List Nat) (st out : List Email × MsgIndex),
      matchLoop groups idxs st = .ok out →
      ∀ (k : Nat) (e : Email), st.1.get? k = some e →
        e.orphan_status ≠ some st_orphan_reply →
        ∃ tail, out.1.get? k = some { e with children_ids := e.children_ids ++ tail } := by
  intro idxs
  induction idxs with
  | nil =>
    intro st out h k e hk hst
    injection h with h
    refine ⟨[], ?_⟩
    rw [← h, List.append_nil]
    exact hk
  | cons i rest ih =>
    intro st out h k e hk hst
    have h2 : (processOrphan groups st.1 st.2 i >>= fun st2 =>
        matchLoop groups rest st2) = .ok out := h
    obtain ⟨st2, hpo, hml⟩ := (except_bind_ok _ _ _).mp h2
    obtain ⟨t1, h1⟩ := processOrphan_frame groups st.1 st.2 i st2 hpo k e hk hst
    have hst1 : ({ e with children_ids := e.children_ids ++ t1 } : Email).orphan_status ≠
        some st_orphan_reply := hst
    obtain ⟨t2, h2b⟩ := ih st2 out hml k _ h1 hst1
    refine ⟨t1 ++ t2, ?_⟩
    rw [← List.append_assoc]
    exact h2b

theorem match_orphans_elim (emails : List Email) (out : List Email)
    (h : match_orphans emails = .ok out) :
    ∃ st2, matchLoop (subjectGroup emails) (List.range emails.length)
      (emails, buildByMessageId emails) = .ok st2 ∧ out = st2.1 := by
  have h2 : (checkIds emails >>= fun _ =>
      matchLoop (subjectGroup emails) (List.range emails.length)
        (emails, buildByMessageId emails) >>= fun o =>
      (if (emails.filter fun e => decide (e.orphan_status = some st_orphan_reply)).length = 0
        then (.error zeroDivErr : Except String (List Email))
        else pure o.1)) = .ok out := h
  obtain ⟨u, hc, h3⟩ := (except_bind_ok _ _ _).mp h2
  obtain ⟨st2, hml, h4⟩ := (except_bind_ok _ _ _).mp h3
  by_cases hz :
      (emails.filter fun e => decide (e.orphan_status = some st_orphan_reply)).length = 0
  · rw [if_pos hz] at h4
    cases h4
  · rw [if_neg hz] at h4
    injection h4 with h4
    exact ⟨st2, hml, h4.symm⟩

theorem identifyLoop_ok_map :
    ∀ (emails out : List Email), identifyLoop emails = .ok out →
      out = emails.map classifyOne := by
  intro emails
  induction emails with
  | nil =>
    intro out h
    injection h with h
    exact h.symm
  | cons e rest ih =>
    intro out h
    unfold identifyLoop at h
    by_cases hns : normalize_subject (e.subject.getD "") ≠ ""
    · rw [if_pos hns] at h
      have h2 : (getKey e.id keyErrId >>= fun _ =>
          identifyLoop rest >>= fun o => pure (classifyOne e :: o)) = .ok out := h
      obtain ⟨a, ha, h3⟩ := (except_bind_ok _ _ _).mp h2
      obtain ⟨o, ho, h4⟩ := (except_bind_ok _ _ _).mp h3
      injection h4 with h4
      rw [← h4, ih o ho, List.map_cons]
    · rw [if_neg hns] at h
      have h2 : (identifyLoop rest >>= fun o => pure (classifyOne e :: o)) = .ok out := h
      obtain ⟨o, ho, h4⟩ := (except_bind_ok _ _ _).mp h2
      injection h4 with h4
      rw [← h4, ih o ho, List.map_cons]

theorem classifyOne_true_root (e : Email) (hpar : e.parent_id = none)
    (hrep : is_reply_subject (e.subject.getD "") = false) :
    classifyOne e = { e with orphan_status := some st_true_root,
                             normalized_subject := normalize_subject (e.subject.getD "") } := by
  unfold classifyOne
  rw [hpar, hrep]
  rfl

/-! Concrete two-record pipeline for the no-op-on-non-replies claim: a
record with no reply marker and no in_reply_to, followed by a reply to it
whose in_reply_to resolves nowhere in the archive. -/

def c7rec1 : Email :=
  { id := some "p1", message_id := some "pm1", subject := some "Clipper chip",
    date_parsed := some "1993-05-01" }

def c7rec2 : Email :=
  { id := some "p2", message_id := some "pm2", subject := some "Re: Clipper chip",
    in_reply_to := some "nope", date_parsed := some "1993-05-02" }

def c7rec1c : Email :=
  { c7rec1 with orphan_status := some st_true_root, normalized_subject := "clipper chip" }

def c7rec2c : Email :=
  { c7rec2 with orphan_status := some st_orphan_reply,
                orphan_type := some ot_in_reply_to_unmatched,
                normalized_subject := "clipper chip" }

def c7rec1m : Email := { c7rec1c with children_ids := [some "pm2"] }

def c7rec2m : Email :=
  { c7rec2c with parent_id := some "pm1", orphan_status := some st_matched_by_subject,
                 match_score := some 13 }

/-- C7 counterexample: a record with no reply/forward marker and an
unresolvable in_reply_to is classified true_root by the Orphan Classifier,
but the Subject Matcher then mutates it: when a same-subject orphan picks
it as best parent, the orphan's message id is appended to its children_ids,
so the record is not left unchanged. -/
theorem c7_true_root_mutated_by_matcher :
    identify_orphans [c7rec1, c7rec2] = .ok [c7rec1c, c7rec2c] ∧
    c7rec1c.orphan_status = some st_true_root ∧
    is_reply_subject (c7rec1.subject.getD "") = false ∧
    c7rec1.in_reply_to = none ∧ c7rec1.parent_id = none ∧
    c7rec1c.children_ids = [] ∧
    match_orphans [c7rec1c, c7rec2c] = .ok [c7rec1m, c7rec2m] ∧
    c7rec1m.children_ids = [some "pm2"] ∧
    c7rec1m ≠ c7rec1c :=
  ⟨rfl, rfl, rfl, rfl, rfl, rfl, rfl, rfl, by decide⟩

/-- C7 (amended): a record with no resolved parent_id and a subject without
a reply/forward marker is classified true_root by the Orphan Classifier;
and the Subject Matcher never mutates any field of a record that is not an
orphan_reply, except possibly appending entries to its children_ids (which
the counterexample shows can really happen, so "never mutated" is too
strong). -/
theorem c7_true_root_classification_and_frame :
    (∀ (emails out : List Email) (k : Nat) (e : Email),
      identify_orphans emails = .ok out → emails.get? k = some e →
      e.parent_id = none → is_reply_subject (e.subject.getD "") = false →
      out.get? k = some { e with orphan_status := some st_true_root,
                                 normalized_subject := normalize_subject (e.subject.getD "") }) ∧
    (∀ (emails out : List Email) (k : Nat) (e : Email),
      match_orphans emails = .ok out → emails.get? k = some e →
      e.orphan_status ≠ some st_orphan_reply →
      ∃ tail, out.get? k = some { e with children_ids := e.children_ids ++ tail }) := by
  constructor
  · intro emails out k e hout hk hpar hrep
    have h2 : (identifyLoop emails >>= fun o =>
        checkIds o >>= fun _ => pure o) = .ok out := hout
    obtain ⟨o, hl, h3⟩ := (except_bind_ok _ _ _).mp h2
    obtain ⟨u, hcu, h4⟩ := (except_bind_ok _ _ _).mp h3
    injection h4 with h4
    have ho : out = emails.map classifyOne := by
      rw [← h4]
      exact identifyLoop_ok_map emails o hl
    rw [ho, List.get?_map, hk]
    simp only [Option.map]
    rw [classifyOne_true_root e hpar hrep]
  · intro emails out k e hout hk hst
    obtain ⟨st2, hml, ho⟩ := match_orphans_elim emails out hout
    obtain ⟨tail, ht⟩ := matchLoop_frame (subjectGroup emails) (List.range emails.length)
      (emails, buildByMessageId emails) st2 hml k e hk hst
    exact ⟨tail, by rw [ho]; exact ht⟩

theorem c7_true_root_classification_and_frame_witness :
    ([c7rec1, c7rec2].get? 0 = some c7rec1 ∧
      [c7rec1c, c7rec2c].get? 0 = some c7rec1c ∧
      c7rec1c.orphan_status ≠ some st_orphan_reply) ∧
    [c7rec1c, c7rec2c].get? 0 = some { c7rec1 with
      orphan_status := some st_true_root,
      normalized_subject := normalize_subject (c7rec1.subject.getD "") } ∧
    (∃ tail, [c7rec1m, c7rec2m].get? 0 =
      some { c7rec1c with children_ids := c7rec1c.children_ids ++ tail }) :=
  ⟨⟨rfl, rfl, by decide⟩,
    c7_true_root_classification_and_frame.1 [c7rec1, c7rec2] [c7rec1c, c7rec2c] 0 c7rec1
      rfl rfl rfl rfl,
    c7_true_root_classification_and_frame.2 [c7rec1c, c7rec2c] [c7rec1m, c7rec2m] 0 c7rec1c
      rfl rfl (by decide)⟩

theorem eraseDups_loop_nil (bs : List String) : List.eraseDups.loop [] bs = bs.reverse := rfl

theorem eraseDups_loop_cons (a : String) (as bs : List String) :
    List.eraseDups.loop (a :: as) bs =
      (match bs.elem a with
       | true => List.eraseDups.loop as bs
       | false => List.eraseDups.loop as (a :: bs)) := rfl

theorem eraseDups_loop_mem (as : List String) :
    ∀ (bs : List String) (x : String),
      x ∈ List.eraseDups.loop as bs ↔ x ∈ as ∨ x ∈ bs := by
  induction as with
  | nil =>
    intro bs x
    rw [eraseDups_loop_nil, List.mem_reverse]
    simp
  | cons a as ih =>
    intro bs x
    rw [eraseDups_loop_cons]
    cases he : bs.elem a with
    | true =>
      simp only []
      rw [ih]
      have ha : a ∈ bs := List.elem_iff.mp he
      simp only [List.mem_cons]
      constructor
      · exact fun h => h.imp Or.inr id
      · rintro ((rfl | h) | h)
        · exact Or.inr ha
        · exact Or.inl h
        · exact Or.inr h
    | false =>
      simp only []
      rw [ih]
      simp only [List.mem_cons]
      tauto

theorem eraseDups_loop_nodup (as : List String) :
    ∀ bs : List String, bs.Nodup → (List.eraseDups.loop as bs).Nodup := by
  induction as with
  | nil =>
    intro bs h
    rw [eraseDups_loop_nil]
    exact List.nodup_reverse.mpr h
  | cons a as ih =>
    intro bs h
    rw [eraseDups_loop_cons]
    cases he : bs.elem a with
    | true =>
      simp only []
      exact ih bs h
    | false =>
      simp only []
      refine ih (a :: bs) (List.nodup_cons.mpr ⟨?_, h⟩)
      intro hmem
      rw [List.elem_iff.mpr hmem] at he
      cases he

theorem eraseDups_mem (l : List String) (x : String) : x ∈ l.eraseDups ↔ x ∈ l := by
  rw [show l.eraseDups = List.eraseDups.loop l [] from rfl, eraseDups_loop_mem]
  simp

theorem eraseDups_nodup (l : List String) : l.eraseDups.Nodup := by
  rw [show l.eraseDups = List.eraseDups.loop l [] from rfl]
  exact eraseDups_loop_nodup l [] List.nodup_nil

theorem insertStable_length {α : Type} (le : α → α → Bool) (x : α) :
    ∀ l : List α, (insertStable le x l).length = l.length + 1 := by
  intro l
  induction l with
  | nil => rfl
  | cons y ys ih =>
    unfold insertStable
    by_cases h : le y x = true
    · rw [if_pos h]
      simp [ih]
    · rw [if_neg h]
      simp

theorem stableSort_length {α : Type} (le : α → α → Bool) (l : List α) :
    (stableSort le l).length = l.length := by
  suffices h : ∀ (l2 acc : List α),
      (l2.foldl (fun a x => insertStable le x a) acc).length = acc.length + l2.length by
    simpa using h l []
  intro l2
  induction l2 with
  | nil => intro acc; simp
  | cons x xs ih =>
    intro acc
    rw [List.foldl_cons, ih, insertStable_length]
    simp only [List.length_cons]
    omega

theorem get_thread_messages_succ (store : List Email) (bmi : MsgIndex) (n i d : Nat) :
    get_thread_messages store bmi (n + 1) i d =
      (match store.get? i with
       | none => [(i, d)]
       | some e =>
         (i, d) :: (e.children_ids.map fun cm =>
           match cm with
           | some s =>
             match List.lookup s bmi with
             | some j => get_thread_messages store bmi n j (d + 1)
             | none => []
           | none => []).flatten) := rfl

theorem get_thread_messages_ne_nil (store : List Email) (bmi : MsgIndex) (fuel i d : Nat) :
    get_thread_messages store bmi fuel i d ≠ [] := by
  cases fuel with
  | zero => simp [get_thread_messages]
  | succ n =>
    rw [get_thread_messages_succ]
    cases h : store.get? i with
    | none => simp
    | some e => simp

theorem foldl_max_init : ∀ (l : List Nat) (a : Nat), a ≤ l.foldl max a := by
  intro l
  induction l with
  | nil => intro a; exact le_refl a
  | cons x xs ih => intro a; exact le_trans (le_max_left a x) (ih (max a x))

theorem foldl_max_mem_le : ∀ (l : List Nat) (a x : Nat), x ∈ l → x ≤ l.foldl max a := by
  intro l
  induction l with
  | nil => intro a x h; cases h
  | cons y ys ih =>
    intro a x h
    rcases List.mem_cons.mp h with rfl | h2
    · exact le_trans (le_max_right a x) (foldl_max_init ys (max a x))
    · exact ih (max a y) x h2

theorem foldl_max_cases : ∀ (l : List Nat) (a : Nat), l.foldl max a = a ∨ l.foldl max a ∈ l := by
  intro l
  induction l with
  | nil => intro a; exact Or.inl rfl
  | cons x xs ih =>
    intro a
    rw [List.foldl_cons]
    rcases ih (max a x) with h | h
    · rcases max_choice a x with h2 | h2
      · exact Or.inl (by rw [h, h2])
      · exact Or.inr (by rw [h, h2]; exact List.mem_cons_self x xs)
    · exact Or.inr (List.mem_cons_of_mem x h)

theorem stampThread_cons (store : List Email) (tid : String) (p : Nat × Nat)
    (ms : List (Nat × Nat)) :
    stampThread store tid (p :: ms) =
      stampThread (match store.get? p.1 with
        | some e => store.set p.1 { e with thread_id := some tid }
        | none => store) tid ms := rfl

theorem stampThread_length (tid : String) :
    ∀ (ms : List (Nat × Nat)) (store : List Email),
      (stampThread store tid ms).length = store.length := by
  intro ms
  induction ms with
  | nil => intro store; rfl
  | cons p rest ih =>
    intro store
    rw [stampThread_cons, ih]
    cases hp : store.get? p.1 with
    | none => simp only [hp]
    | some e =>
      simp only [hp]
      exact List.length_set store p.1 _

theorem stampThread_frame (tid : String) :
    ∀ (ms : List (Nat × Nat)) (store : List Email) (j : Nat), j ∉ ms.map Prod.fst →
      (stampThread store tid ms).get? j = store.get? j := by
  intro ms
  induction ms with
  | nil => intro store j h; rfl
  | cons p rest ih =>
    intro store j h
    simp only [List.map_cons, List.mem_cons, not_or] at h
    obtain ⟨h1, h2⟩ := h
    rw [stampThread_cons, ih _ j h2]
    cases hp : store.get? p.1 with
    | none => simp only [hp]
    | some e =>
      simp only [hp]
      exact List.get?_set_ne _ _ (Ne.symm h1)

theorem stampThread_stamps (tid : String) :
    ∀ (ms : List (Nat × Nat)) (store : List Email) (j : Nat),
      j ∈ ms.map Prod.fst → j < store.length →
      ((stampThread store tid ms).get? j).map Email.thread_id = some (some tid) := by
  intro ms
  induction ms with
  | nil =>
    intro store j h hl
    simp at h
  | cons p rest ih =>
    intro store j hmem hlt
    rw [stampThread_cons]
    by_cases hr : j ∈ rest.map Prod.fst
    · cases hp : store.get? p.1 with
      | none =>
        simp only [hp]
        exact ih store j hr hlt
      | some e =>
        simp only [hp]
        exact ih _ j hr (by rw [List.length_set]; exact hlt)
    · have hj : j = p.1 := by
        rw [List.map_cons] at hmem
        rcases List.mem_cons.mp hmem with h | h
        · exact h
        · exact absurd h hr
      subst hj
      rw [stampThread_frame tid rest _ _ hr]
      cases hp : store.get? p.1 with
      | none =>
        exfalso
        have := List.get?_eq_none.mp hp
        omega
      | some e =>
        simp only [hp]
        rw [List.get?_set_eq_of_lt _ hlt]
        rfl

theorem collectIds_length (store : List Email) :
    ∀ (ms : List (Nat × Nat)) (out : List String),
      collectIds store ms = .ok out → out.length = ms.length := by
  intro ms
  induction ms with
  | nil =>
    intro out h
    injection h with h
    rw [← h]
    rfl
  | cons p rest ih =>
    intro out h
    have h2 : ((match store.get? p.1 with
        | some e => Except.ok e
        | none => Except.error keyErrId) >>= fun e =>
        getKey e.id keyErrId >>= fun a =>
        collectIds store rest >>= fun o => pure (a :: o)) = .ok out := h
    obtain ⟨e, he, h3⟩ := (except_bind_ok _ _ _).mp h2
    obtain ⟨a, ha, h4⟩ := (except_bind_ok _ _ _).mp h3
    obtain ⟨o, ho, h5⟩ := (except_bind_ok _ _ _).mp h4
    injection h5 with h5
    rw [← h5]
    simp [ih o ho]

theorem buildThread_elim (store : List Email) (bmi : MsgIndex) (ri : Nat) (root : Email)
    (t : ThreadRec) (ms : List (Nat × Nat))
    (h : buildThread store bmi ri root = .ok (t, ms)) :
    ms = stableSort (fun a b => decide (threadSortKey store a ≤ threadSortKey store b))
      (get_thread_messages store bmi (store.length + 1) ri 0) ∧
    ∃ mids rootId, collectIds store ms = .ok mids ∧ root.id = some rootId ∧
      t = { id := thread_pre ++ rootId
            root_message_id := rootId
            subject := root.subject.getD ""
            normalized_subject := root.normalized_subject
            message_ids := mids
            message_count := mids.length
            participants := (sendersOf store ms).eraseDups
            participant_count := (sendersOf store ms).eraseDups.length
            date_start := (datesOf store ms).min?
            date_end := (datesOf store ms).max?
            depth := (ms.map Prod.snd).foldl max 0
            root_author := (senderOf root).getD ""
            has_pgp := ms.any fun p => ((store.get? p.1).map Email.has_pgp).getD false } := by
  unfold buildThread at h
  obtain ⟨mids, hm, h3⟩ := (except_bind_ok _ _ _).mp h
  obtain ⟨rootId, hr, h4⟩ := (except_bind_ok _ _ _).mp h3
  injection h4 with h4
  injection h4 with ht hms
  subst hms
  exact ⟨rfl, mids, rootId, hm, (getKey_ok _ _ _).mp hr, ht.symm⟩

theorem buildThreadsLoop_cons (bmi : MsgIndex) (ri : Nat) (rest : List Nat)
    (store : List Email) (ths : List ThreadRec) :
    buildThreadsLoop bmi (ri :: rest) (store, ths) =
      (match store.get? ri with
       | none => buildThreadsLoop bmi rest (store, ths)
       | some root => do
         let tm ← buildThread store bmi ri root
         buildThreadsLoop bmi rest (stampThread store tm.1.id tm.2, ths ++ [tm.1])) := rfl

theorem buildThreadsLoop_count (bmi : MsgIndex) :
    ∀ (ris : List Nat) (store : List Email) (ths : List ThreadRec)
      (out : List Email × List ThreadRec),
      (∀ ri ∈ ris, ri < store.length) →
      buildThreadsLoop bmi ris (store, ths) = .ok out →
      out.2.length = ths.length + ris.length := by
  intro ris
  induction ris with
  | nil =>
    intro store ths out hh h
    injection h with h
    rw [← h]
    simp
  | cons ri rest ih =>
    intro store ths out hh h
    have hri : ri < store.length := hh ri (List.mem_cons_self ri rest)
    rw [buildThreadsLoop_cons] at h
    cases hg : store.get? ri with
    | none =>
      exfalso
      have := List.get?_eq_none.mp hg
      omega
    | some root =>
      rw [hg] at h
      simp only [] at h
      obtain ⟨tm, htm, h2⟩ := (except_bind_ok _ _ _).mp h
      have hrest : ∀ r ∈ rest, r < (stampThread store tm.1.id tm.2).length := by
        intro r hrr
        rw [stampThread_length]
        exact hh r (List.mem_cons_of_mem ri hrr)
      have hc := ih (stampThread store tm.1.id tm.2) (ths ++ [tm.1]) out hrest h2
      rw [hc]
      simp only [List.length_append, List.length_cons, List.length_nil]
      omega

/-! Concrete Scenario 5 configuration: a 4-message forest — one root, two
children of the root, one grandchild — with a duplicated sender and no
parseable date anywhere. -/

def c6r : Email :=
  { id := some "r1", message_id := some "mr", subject := some "Remailers",
    from_email := some "bob", children_ids := [some "mc1", some "mc2"],
    normalized_subject := "remailers" }

def c6c1 : Email :=
  { id := some "c1", message_id := some "mc1", parent_id := some "mr",
    from_email := some "carol", children_ids := [some "mg"],
    normalized_subject := "remailers" }

def c6c2 : Email :=
  { id := some "c2", message_id := some "mc2", parent_id := some "mr",
    from_email := some "alice", normalized_subject := "remailers" }

def c6g : Email :=
  { id := some "g1", message_id := some "mg", parent_id := some "mc1",
    from_email := some "alice", has_pgp := true, normalized_subject := "remailers" }

def c6store : List Email := [c6r, c6c1, c6c2, c6g]

def c6tid : String := "thread_r1"

def c6thread : ThreadRec :=
  { id := c6tid, root_message_id := "r1", subject := "Remailers",
    normalized_subject := "remailers", message_ids := ["r1", "c1", "g1", "c2"],
    message_count := 4, participants := ["bob", "carol", "alice"],
    participant_count := 3, date_start := none, date_end := none, depth := 2,
    root_author := "bob", has_pgp := true }

def c6ms : List (Nat × Nat) := [(0, 0), (1, 1), (3, 2), (2, 1)]

def c6out : List Email :=
  [{ c6r with thread_id := some c6tid }, { c6c1 with thread_id := some c6tid },
   { c6c2 with thread_id := some c6tid }, { c6g with thread_id := some c6tid }]

/-- C6: the Thread Assembler emits one thread record per root (record with
null parent_id); for every thread it builds, the participants list is the
duplicate-free set of sender identities of the traversed members, has_pgp
is the logical OR of the members' flags, depth is the maximum per-member
root distance, a thread with no resolvable date in any member gets a null
date span while still returning ok, the message count equals the number of
traversed members, and stamping writes the thread id into every member
index; on the 4-message forest of one root, two children and a grandchild
with a duplicated sender and no dates, the thread record has depth 2,
message_count 4, duplicate-free participants, a null date span, and every
member stamped. -/
theorem c6_thread_assembler :
    (∀ (emails : List Email) (out : List Email × List ThreadRec),
      build_threads emails = .ok out →
      out.2.length = ((List.range emails.length).filter fun i =>
        ((emails.get? i).map fun e => e.parent_id.isNone).getD false).length) ∧
    (∀ (store : List Email) (bmi : MsgIndex) (ri : Nat) (root : Email)
      (t : ThreadRec) (ms : List (Nat × Nat)) (tid : String),
      buildThread store bmi ri root = .ok (t, ms) →
      t.participants.Nodup ∧
      (∀ s, s ∈ t.participants ↔ s ∈ sendersOf store ms) ∧
      (t.has_pgp = true ↔
        ∃ p ∈ ms, ((store.get? p.1).map Email.has_pgp).getD false = true) ∧
      (∀ p ∈ ms, p.2 ≤ t.depth) ∧ (∃ p ∈ ms, p.2 = t.depth) ∧
      t.message_count = ms.length ∧
      (datesOf store ms = [] → t.date_start = none ∧ t.date_end = none) ∧
      (∀ j, j ∈ ms.map Prod.fst → j < store.length →
        ((stampThread store tid ms).get? j).map Email.thread_id = some (some tid))) ∧
    build_threads c6store = .ok (c6out, [c6thread]) ∧
    c6thread.depth = 2 ∧ c6thread.message_count = 4 ∧
    c6thread.participants.Nodup ∧
    c6thread.date_start = none ∧ c6thread.date_end = none ∧ c6thread.has_pgp = true ∧
    (∀ e ∈ c6out, e.thread_id = some c6thread.id) := by
  refine ⟨?_, ?_, rfl, rfl, rfl, by decide, rfl, rfl, rfl, by decide⟩
  · intro emails out h
    have h2 : (checkIds emails >>= fun _ =>
        buildThreadsLoop (buildByMessageId emails)
          ((List.range emails.length).filter fun i =>
            ((emails.get? i).map fun e => e.parent_id.isNone).getD false)
          (emails, [])) = .ok out := h
    obtain ⟨u, hc, h3⟩ := (except_bind_ok _ _ _).mp h2
    have hmem : ∀ ri ∈ (List.range emails.length).filter fun i =>
        ((emails.get? i).map fun e => e.parent_id.isNone).getD false, ri < emails.length := by
      intro ri hri
      exact List.mem_range.mp (List.mem_filter.mp hri).1
    have hc2 := buildThreadsLoop_count (buildByMessageId emails) _ emails [] out hmem h3
    simpa using hc2
  · intro store bmi ri root t ms tid h
    obtain ⟨hms, mids, rootId, hcol, hrid, ht⟩ := buildThread_elim store bmi ri root t ms h
    subst ht
    have hne : ms ≠ [] := by
      rw [hms]
      intro hcon
      have hlen := stableSort_length
        (fun a b => decide (threadSortKey store a ≤ threadSortKey store b))
        (get_thread_messages store bmi (store.length + 1) ri 0)
      rw [hcon] at hlen
      exact get_thread_messages_ne_nil store bmi (store.length + 1) ri 0
        (List.eq_nil_of_length_eq_zero hlen.symm)
    refine ⟨eraseDups_nodup _, fun s => eraseDups_mem _ s, ?_, ?_, ?_, ?_, ?_, ?_⟩
    · simp only [List.any_eq_true]
    · intro p hp
      exact foldl_max_mem_le (ms.map Prod.snd) 0 p.2 (List.mem_map_of_mem Prod.snd hp)
    · rcases foldl_max_cases (ms.map Prod.snd) 0 with hz | hmem2
      · obtain ⟨p, rest, hms2⟩ : ∃ p rest, ms = p :: rest := by
          cases hx : ms with
          | nil => exact absurd hx hne
          | cons p rest => exact ⟨p, rest, rfl⟩
        have hpm : p ∈ ms := by rw [hms2]; exact List.mem_cons_self p rest
        refine ⟨p, hpm, ?_⟩
        have hle := foldl_max_mem_le (ms.map Prod.snd) 0 p.2
          (List.mem_map_of_mem Prod.snd hpm)
        rw [hz] at hle
        show p.2 = (ms.map Prod.snd).foldl max 0
        rw [hz]
        omega
      · obtain ⟨p, hp, hp2⟩ := List.mem_map.mp hmem2
        exact ⟨p, hp, hp2⟩
    · exact collectIds_length store ms mids hcol
    · intro hd
      rw [hd]
      exact ⟨rfl, rfl⟩
    · intro j hj hjl
      exact stampThread_stamps tid ms store j hj hjl

theorem c6_thread_assembler_witness :
    [c6r, c6c1, c6c2, c6g].length = 4 ∧
    (buildThread c6store (buildByMessageId c6store) 0 c6r = .ok (c6thread, c6ms) ∧
      c6thread.participants.Nodup ∧
      (∀ p ∈ c6ms, p.2 ≤ c6thread.depth) ∧ (∃ p ∈ c6ms, p.2 = c6thread.depth) ∧
      c6thread.message_count = c6ms.length) ∧
    ∀ (out : List Email × List ThreadRec), build_threads c6store = .ok out →
      out.2.length = 1 := by
  have hbt : buildThread c6store (buildByMessageId c6store) 0 c6r = .ok (c6thread, c6ms) := rfl
  have hprops := c6_thread_assembler.2.1 c6store (buildByMessageId c6store) 0 c6r c6thread
    c6ms c6tid hbt
  refine ⟨rfl, ⟨hbt, hprops.1, hprops.2.2.2.1, hprops.2.2.2.2.1, hprops.2.2.2.2.2.1⟩, ?_⟩
  intro out h
  have := c6_thread_assembler.1 c6store out h
  simpa using this
